import Mathlib

/-!
Verification of the `readme-rustdocifier` line-transformation engine
(`src/inner.rs`) against its specification.

Strings are modelled as `List Char`; byte positions of the source become
character positions.  A Rust function that can panic (an out-of-bounds index
or slice) is modelled with an outer `Option`: `none` is a panic, `some r` is
the returned value `r`.  `&mut bool` parameters are modelled by returning the
new flag value alongside the result.
-/

namespace Rdoc

/-- The backtick character (code point 96), the code-fence marker of the source. -/
def backtick : Char := Char.ofNat 96

/-- Unicode `White_Space`, the property used by Rust's `char::is_whitespace`. -/
def rust_is_whitespace (c : Char) : Bool :=
  decide ((0x09 ≤ c.toNat ∧ c.toNat ≤ 0x0D) ∨ c.toNat = 0x20 ∨ c.toNat = 0x85 ∨
    c.toNat = 0xA0 ∨ c.toNat = 0x1680 ∨ (0x2000 ≤ c.toNat ∧ c.toNat ≤ 0x200A) ∨
    c.toNat = 0x2028 ∨ c.toNat = 0x2029 ∨ c.toNat = 0x202F ∨ c.toNat = 0x205F ∨
    c.toNat = 0x3000)

/-- Index of the first character satisfying `p`, as Rust's `str::find`. -/
def find_index (p : Char → Bool) : List Char → Option Nat
  | [] => none
  | c :: cs => if p c then some 0 else (find_index p cs).map (· + 1)

/-- Rust's `str::split(sep)`: pieces between separators; the empty string has
one empty piece. -/
def splitChar (sep : Char) : List Char → List (List Char)
  | [] => [[]]
  | c :: cs =>
    if c = sep then [] :: splitChar sep cs
    else
      match splitChar sep cs with
      | [] => [[c]]
      | p :: ps => (c :: p) :: ps

/-- Rust's `[&str]::join(sep)`. -/
def joinSep (sep : List Char) : List (List Char) → List Char
  | [] => []
  | [x] => x
  | x :: y :: ys => x ++ sep ++ joinSep sep (y :: ys)

/-- Rust's `str::starts_with` for a string pattern. -/
def starts_with : List Char → List Char → Bool
  | _, [] => true
  | [], _ :: _ => false
  | c :: cs, p :: ps => if c = p then starts_with cs ps else false

/-- Rust's `str::ends_with` for a string pattern. -/
def ends_with (l s : List Char) : Bool := starts_with l.reverse s.reverse

/-- Rust's `str::contains` for a single character. -/
def contains_char : List Char → Char → Bool
  | [], _ => false
  | c :: cs, x => if c = x then true else contains_char cs x

/-- The line terminator of a line: its trailing `\r\n` or `\n`, or nothing. -/
def terminator (l : List Char) : List Char :=
  match l.reverse with
  | [] => []
  | c :: rest =>
    if c = '\n' then
      match rest with
      | d :: _ => if d = '\r' then ['\r', '\n'] else ['\n']
      | [] => ['\n']
    else []

/-- Rust's `str::split_inclusive('\n')`: lines keep their `'\n'`; no empty
trailing line is produced. -/
def split_inclusive : List Char → List (List Char)
  | [] => []
  | c :: cs =>
    if c = '\n' then [c] :: split_inclusive cs
    else
      match split_inclusive cs with
      | [] => [[c]]
      | l :: ls => (c :: l) :: ls

/-- The error type of `rustdocify` (`enum Error` of the source). -/
inductive Error where
  | MissingVersionInUrl : List Char → Error
  | NonFirstTopLevelHeader : List Char → Error
  | UnrecognizedUrl : List Char → Error
  | WrongCrateNameInUrl : List Char → Error
  | WrongVersionInUrl : List Char → Error
deriving DecidableEq, Repr

instance {ε α : Type} [DecidableEq ε] [DecidableEq α] : DecidableEq (Except ε α) := fun x y => by
  cases x <;> cases y
  case error.error a b => exact decidable_of_iff (a = b) (by simp)
  case error.ok a b => exact isFalse (by simp)
  case ok.error a b => exact isFalse (by simp)
  case ok.ok a b => exact decidable_of_iff (a = b) (by simp)

/-- `root_link` of the source: `crate`, plus the fragment when present. -/
def root_link (fragment : Option (List Char)) : List Char :=
  match fragment with
  | some f => "crate#".toList ++ f
  | none => "crate".toList

/-- The `DATA` table of `convert_url`: filename kind markers and their special
fragment starts. -/
def kinds_data : List (List Char × List (List Char)) :=
  [("enum.".toList, ["method.".toList, "variant.".toList]),
   ("fn.".toList, ([] : List (List Char))),
   ("struct.".toList, ["method.".toList]),
   ("trait.".toList, ["tymethod.".toList])]

/-- The inner loop of `convert_url` over `special_fragment_starts`:
`fragment.strip_prefix(special)` of the first special start that matches. -/
def strip_first (specials : List (List Char)) (frag : List Char) : Option (List Char) :=
  match specials with
  | [] => none
  | s :: rest => if starts_with frag s then some (frag.drop s.length) else strip_first rest frag

/-- The `for (prefix, special_fragment_starts) in DATA` loop of `convert_url`,
falling through to `UnrecognizedUrl`.  The slice
`&filename[prefix.len()..filename.len() - 5]` panics (`none`) when its start
exceeds its end. -/
def convert_url_kinds (url modules filename : List Char) (fragment : Option (List Char)) :
    List (List Char × List (List Char)) → Option (Except Error (List Char))
  | [] => some (.error (.UnrecognizedUrl url))
  | (kind, specials) :: rest =>
    if starts_with filename kind then
      if filename.length - 5 < kind.length then none
      else
        let name := (filename.drop kind.length).take (filename.length - 5 - kind.length)
        match fragment with
        | some frag =>
          match strip_first specials frag with
          | some fragment_name =>
            some (.ok ("crate".toList ++ modules ++ "::".toList ++ name ++
              "::".toList ++ fragment_name))
          | none =>
            some (.ok ("crate".toList ++ modules ++ "::".toList ++ name ++
              "#".toList ++ frag))
        | none => some (.ok ("crate".toList ++ modules ++ "::".toList ++ name))
    else convert_url_kinds url modules filename fragment rest

/-- The filename part of `convert_url` (from `if filename == "index.html"`
down), given the already formatted `modules` string. -/
def convert_url_file (url modules filename : List Char) (fragment : Option (List Char)) :
    Option (Except Error (List Char)) :=
  if filename = "index.html".toList then
    match fragment with
    | some f => some (.ok ("crate".toList ++ modules ++ "#".toList ++ f))
    | none => some (.ok ("crate".toList ++ modules))
  else if ends_with filename ".html".toList = false then
    some (.error (.UnrecognizedUrl url))
  else
    convert_url_kinds url modules filename fragment kinds_data

/-- Rust's `if let Some(r) = required { actual != r } else { false }` pattern of
the version and crate-name checks. -/
def opt_mismatch (required : Option (List Char)) (actual : List Char) : Bool :=
  match required with
  | some r => if actual = r then false else true
  | none => false

/-- The path part of `convert_url` (from popping the trailing empty segment and
the `// VERSION` comment down). -/
def convert_url_path (url : List Char) (version crate_name : Option (List Char))
    (path0 : List (List Char)) (fragment : Option (List Char)) :
    Option (Except Error (List Char)) :=
  let path := if path0.getLast? = some ([] : List Char) then path0.dropLast else path0
  if path.length = 0 then
    if version.isSome then some (.error (.MissingVersionInUrl url))
    else some (.ok (root_link fragment))
  else
    let url_version := path.getD 0 []
    if opt_mismatch version url_version then some (.error (.WrongVersionInUrl url))
    else if path.length = 2 ∧ path.getD 1 [] = "index.html".toList then
      some (.ok (root_link fragment))
    else if path.length = 1 then some (.ok (root_link fragment))
    else
      let url_crate := path.getD 1 []
      if opt_mismatch crate_name url_crate then some (.error (.WrongCrateNameInUrl url))
      else if path.length = 3 ∧ path.getD 2 [] = "index.html".toList then
        some (.ok (root_link fragment))
      else if path.length = 2 then some (.ok (root_link fragment))
      else
        let last := path.getLast?.getD []
        let pair :=
          if contains_char last '.' then ((path.drop 2).dropLast, last)
          else (path.drop 2, "index.html".toList)
        let modules :=
          if pair.1 = [] then ([] : List Char)
          else "::".toList ++ joinSep "::".toList pair.1
        convert_url_file url modules pair.2 fragment

/-- Fragment and path extraction of `convert_url`, given the computed
`url_prefix_len`.  The slice `url[url_prefix_len..fragment_start_pos]` panics
(`none`) when the first `#` lies inside the prefix. -/
def convert_url_frag (url : List Char) (version crate_name : Option (List Char))
    (plen : Nat) : Option (Except Error (List Char)) :=
  match find_index (fun c => decide (c = '#')) url with
  | some f =>
    if f < plen then none
    else
      convert_url_path url version crate_name
        (splitChar '/' ((url.drop plen).take (f - plen))) (some (url.drop (f + 1)))
  | none => convert_url_path url version crate_name (splitChar '/' (url.drop plen)) none

/-- `convert_url` of the source. -/
def convert_url (url pkg : List Char) (version crate_name : Option (List Char)) :
    Option (Except Error (List Char)) :=
  let url_pfx := "https://docs.rs/".toList ++ pkg
  if starts_with url url_pfx = false then some (.ok url)
  else if url.length = url_pfx.length then
    convert_url_frag url version crate_name url_pfx.length
  else
    match url.get? url_pfx.length with
    | none => none
    | some c =>
      if c = '/' then convert_url_frag url version crate_name (url_pfx.length + 1)
      else if c = '#' then convert_url_frag url version crate_name url_pfx.length
      else some (.ok url)

/-- `convert_link_line` of the source.  The indexings `bytes[0]` and
`bytes[close_bracket_pos + 1]` panic (`none`) when out of bounds. -/
def convert_link_line (line pkg : List Char) (version crate_name : Option (List Char)) :
    Option (Except Error (Option (List Char))) :=
  match line.get? 0 with
  | none => none
  | some c0 =>
    if c0 = '[' then
      match find_index (fun c => decide (c = ']')) line with
      | none => some (.ok none)
      | some cb =>
        match line.get? (cb + 1) with
        | none => none
        | some c1 =>
          if c1 = ':' then
            match find_index (fun c => !(rust_is_whitespace c)) (line.drop (cb + 2)) with
            | none => some (.ok none)
            | some q =>
              let url_start := cb + 2 + q
              if url_start = cb + 2 then some (.ok none)
              else
                let url_end :=
                  match find_index rust_is_whitespace (line.drop url_start) with
                  | some r => url_start + r
                  | none => line.length
                let url := (line.drop url_start).take (url_end - url_start)
                match convert_url url pkg version crate_name with
                | none => none
                | some (.error e) => some (.error e)
                | some (.ok link) =>
                  some (.ok (some (line.take url_start ++ link ++ line.drop url_end)))
          else some (.ok none)
    else some (.ok none)

/-- `convert_header_line` of the source; the second component is the new value
of the `is_first_header` flag.  The indexing `bytes[level]` panics (`none`)
when `level` reaches the end of the line. -/
def convert_header_line (line : List Char) (is_first_header : Bool) :
    Option (Except Error (Option (List Char)) × Bool) :=
  let level := (line.takeWhile (fun c => decide (c = '#'))).length
  if 0 < level then
    match line.get? level with
    | none => none
    | some c =>
      if c = ' ' then
        if level = 1 then
          if is_first_header then some (.ok (some []), false)
          else some (.error (.NonFirstTopLevelHeader line), is_first_header)
        else some (.ok (some (line.drop 1)), false)
      else some (.ok none, is_first_header)
  else some (.ok none, is_first_header)

/-- The `for n in 0..backtick_count` loop of `is_code_block_end`. -/
def all_ticks : Nat → List Char → Bool
  | 0, _ => true
  | _ + 1, [] => false
  | n + 1, c :: cs => if c = backtick then all_ticks n cs else false

/-- `is_code_block_end` of the source. -/
def is_code_block_end (line : List Char) (count : Nat) : Bool :=
  if line.length < count then false else all_ticks count line

/-- `is_code_block_start` of the source. -/
def is_code_block_start (line : List Char) : Option Nat :=
  let n := (line.takeWhile (fun c => decide (c = backtick))).length
  if 3 ≤ n then some n else none

/-- The two pieces of mutable state of the `rustdocify` loop. -/
structure ScanState where
  ifh : Bool
  cbl : Option Nat
deriving DecidableEq, Repr

/-- One iteration of the `for line in readme.split_inclusive('\n')` loop of
`rustdocify`: the text pushed onto `result` and the next state. -/
def rustdocify_step (pkg : List Char) (version crate_name : Option (List Char))
    (st : ScanState) (line : List Char) :
    Option (Except Error (List Char × ScanState)) :=
  match st.cbl with
  | some level =>
    some (.ok (line, ⟨st.ifh, if is_code_block_end line level then none else some level⟩))
  | none =>
    match is_code_block_start line with
    | some w => some (.ok (line, ⟨st.ifh, some w⟩))
    | none =>
      match convert_header_line line st.ifh with
      | none => none
      | some (.error e, _) => some (.error e)
      | some (.ok (some out), ifh2) => some (.ok (out, ⟨ifh2, none⟩))
      | some (.ok none, ifh2) =>
        match convert_link_line line pkg version crate_name with
        | none => none
        | some (.error e) => some (.error e)
        | some (.ok (some out)) => some (.ok (out, ⟨ifh2, none⟩))
        | some (.ok none) => some (.ok (line, ⟨ifh2, none⟩))

/-- The `rustdocify` loop over a list of lines: accumulated output and final
state. -/
def rustdocify_run (pkg : List Char) (version crate_name : Option (List Char))
    (st : ScanState) : List (List Char) → Option (Except Error (List Char × ScanState))
  | [] => some (.ok ([], st))
  | l :: ls =>
    match rustdocify_step pkg version crate_name st l with
    | none => none
    | some (.error e) => some (.error e)
    | some (.ok (out, st2)) =>
      match rustdocify_run pkg version crate_name st2 ls with
      | none => none
      | some (.error e) => some (.error e)
      | some (.ok (out2, st3)) => some (.ok (out ++ out2, st3))

/-- `rustdocify` of the source. -/
def rustdocify (readme pkg : List Char) (version crate_name : Option (List Char)) :
    Option (Except Error (List Char)) :=
  match rustdocify_run pkg version crate_name ⟨true, none⟩ (split_inclusive readme) with
  | none => none
  | some (.error e) => some (.error e)
  | some (.ok (out, _)) => some (.ok out)

/-- A documentation URL built from its parts, for stating properties of
`convert_url`: the package prefix, a `/`-joined segment path, and an optional
fragment. -/
def doc_url (pkg : List Char) (segs : List (List Char)) (frag : Option (List Char)) :
    List Char :=
  "https://docs.rs/".toList ++ pkg ++ '/' ::
    (joinSep ['/'] segs ++ (match frag with | some f => '#' :: f | none => []))

/-- No character of `l` is whitespace; URLs extracted by `convert_link_line`
satisfy this. -/
def nows (l : List Char) : Prop := ∀ ch ∈ l, rust_is_whitespace ch = false

instance nows_decidable (l : List Char) : Decidable (nows l) :=
  inferInstanceAs (Decidable (∀ ch ∈ l, rust_is_whitespace ch = false))

example : rustdocify ("# Foo\nfoo\n## Bar\nbar\n### Baz".toList) ("foo".toList) none
    (some ("foo".toList)) = some (.ok ("foo\n# Bar\nbar\n## Baz".toList)) := by decide

example : rustdocify ("## A\n## B\r\na\nb\r\n[x]: https://docs.rs/foo\n[y]: https://docs.rs/foo\r\n".toList)
    ("foo".toList) none none =
    some (.ok ("# A\n# B\r\na\nb\r\n[x]: crate\n[y]: crate\r\n".toList)) := by decide

example : rustdocify ("#Foo\n##Bar".toList) ("foo".toList) none (some ("foo".toList)) =
    some (.ok ("#Foo\n##Bar".toList)) := by decide

example : rustdocify ("[x]: https://docs.rs/foo/*/foo/a/b/enum.Foo.html#variant.Bar".toList)
    ("foo".toList) none (some ("foo".toList)) =
    some (.ok ("[x]: crate::a::b::Foo::Bar".toList)) := by decide

example : rustdocify ("[x]: https://docs.rs/foo/*/foo/a/b/trait.Foo.html#tymethod.bar".toList)
    ("foo".toList) none (some ("foo".toList)) =
    some (.ok ("[x]: crate::a::b::Foo::bar".toList)) := by decide

example : rustdocify ("[x]: https://docs.rs/foo/*/foo/hello_world.png".toList)
    ("foo".toList) none none =
    some (.error (.UnrecognizedUrl ("https://docs.rs/foo/*/foo/hello_world.png".toList))) := by
  decide

example : rustdocify ("[x]: https://docs.rs/foo/*/bar".toList) ("foo".toList) none
    (some ("foo".toList)) =
    some (.error (.WrongCrateNameInUrl ("https://docs.rs/foo/*/bar".toList))) := by decide

example : rustdocify ("[x]: https://docs.rs/foo/0.2.0".toList) ("foo".toList)
    (some ("0.1.0".toList)) none =
    some (.error (.WrongVersionInUrl ("https://docs.rs/foo/0.2.0".toList))) := by decide

example : rustdocify ("[x]:   https://docs.rs/foo".toList) ("foo".toList) none
    (some ("foo".toList)) = some (.ok ("[x]:   crate".toList)) := by decide

example : rustdocify ("[x]: https://docs.rs/foo   hello".toList) ("foo".toList) none
    (some ("foo".toList)) = some (.ok ("[x]: crate   hello".toList)) := by decide

example : rustdocify ("[x]:https://docs.rs/foo".toList) ("foo".toList) none
    (some ("foo".toList)) = some (.ok ("[x]:https://docs.rs/foo".toList)) := by decide

example : rustdocify ("[x]: https://docs.rs/foo/*/#fragment".toList) ("foo".toList) none
    (some ("foo".toList)) = some (.ok ("[x]: crate#fragment".toList)) := by decide

example : rustdocify ("[x]: https://docs.rs/foo/*/foo/a/b/index.html#fragment".toList)
    ("foo".toList) none (some ("foo".toList)) =
    some (.ok ("[x]: crate::a::b#fragment".toList)) := by decide

example : rustdocify ("````\n```\n## a\n````\n## b".toList) ("foo".toList) none
    (some ("foo".toList)) = some (.ok ("````\n```\n## a\n````\n# b".toList)) := by decide

example : rustdocify ("```\n[a]: https://docs.rs/foo\n```\n[b]: https://docs.rs/foo".toList)
    ("foo".toList) none (some ("foo".toList)) =
    some (.ok ("```\n[a]: https://docs.rs/foo\n```\n[b]: crate".toList)) := by decide

example : rustdocify ("```\n\n```".toList) ("foo".toList) none (some ("foo".toList)) =
    some (.ok ("```\n\n```".toList)) := by decide

/-! Basic lemmas about the helper functions. -/

theorem starts_with_append_self (a b : List Char) : starts_with (a ++ b) a = true := by
  induction a with
  | nil => cases b <;> rfl
  | cons c cs ih => simp [starts_with, ih]

theorem starts_with_nil (l : List Char) : starts_with l [] = true := by
  cases l <;> rfl

theorem ends_with_append_self (a b : List Char) : ends_with (a ++ b) b = true := by
  unfold ends_with
  rw [List.reverse_append]
  exact starts_with_append_self b.reverse a.reverse

theorem starts_with_drop (l s : List Char) (h : starts_with l s = true) :
    l = s ++ l.drop s.length := by
  induction s generalizing l with
  | nil => simp
  | cons p ps ih =>
    cases l with
    | nil => simp [starts_with] at h
    | cons c cs =>
      simp only [starts_with] at h
      by_cases hc : c = p
      · subst hc
        simp only [if_pos rfl] at h
        simpa using ih cs h
      · simp [if_neg hc] at h

theorem find_index_none_of {p : Char → Bool} {l : List Char}
    (h : ∀ c ∈ l, p c = false) : find_index p l = none := by
  induction l with
  | nil => rfl
  | cons c cs ih =>
    have hc := h c (by simp)
    simp [find_index, hc, ih fun d hd => h d (by simp [hd])]

theorem find_index_none_mem {p : Char → Bool} {l : List Char}
    (h : find_index p l = none) : ∀ c ∈ l, p c = false := by
  induction l with
  | nil => simp
  | cons c cs ih =>
    intro d hd
    simp only [find_index] at h
    by_cases hc : p c
    · simp [hc] at h
    · rcases List.mem_cons.mp hd with hd | hd
      · subst hd; simpa using hc
      · exact ih (by simpa [hc] using h) d hd

theorem find_index_append {p : Char → Bool} {a : List Char} (b : List Char)
    (h : ∀ c ∈ a, p c = false) :
    find_index p (a ++ b) = (find_index p b).map (· + a.length) := by
  induction a with
  | nil => simp [Option.map_id']
  | cons c cs ih =>
    have hc := h c (by simp)
    have ih2 := ih fun d hd => h d (by simp [hd])
    simp only [List.cons_append, find_index, hc, Bool.false_eq_true, if_false, List.append_eq]
    rw [ih2]
    cases find_index p b with
    | none => rfl
    | some m =>
      simp only [Option.map_some', Option.some.injEq, List.length_cons]
      omega

theorem find_index_some_getq {p : Char → Bool} {l : List Char} {n : Nat}
    (h : find_index p l = some n) : ∃ c, l.get? n = some c ∧ p c = true := by
  induction l generalizing n with
  | nil => simp [find_index] at h
  | cons c cs ih =>
    simp only [find_index] at h
    by_cases hc : p c
    · simp only [hc, if_pos] at h
      cases h
      exact ⟨c, rfl, hc⟩
    · simp only [hc, Bool.false_eq_true, if_false] at h
      cases hfi : find_index p cs with
      | none => simp [hfi] at h
      | some m =>
        simp only [hfi, Option.map_some'] at h
        cases h
        obtain ⟨d, hd, hpd⟩ := ih hfi
        exact ⟨d, by simpa using hd, hpd⟩

theorem find_index_take_false {p : Char → Bool} {l : List Char} {n : Nat}
    (h : find_index p l = some n) : ∀ c ∈ l.take n, p c = false := by
  induction l generalizing n with
  | nil => simp
  | cons c cs ih =>
    simp only [find_index] at h
    by_cases hc : p c
    · simp only [hc, if_pos] at h
      cases h
      simp
    · simp only [hc, Bool.false_eq_true, if_false] at h
      cases hfi : find_index p cs with
      | none => simp [hfi] at h
      | some m =>
        simp only [hfi, Option.map_some'] at h
        cases h
        intro d hd
        simp only [List.take_succ_cons, List.mem_cons] at hd
        rcases hd with hd | hd
        · subst hd; simpa using hc
        · exact ih hfi d hd

theorem splitChar_ne_nil (sep : Char) (l : List Char) : splitChar sep l ≠ [] := by
  cases l with
  | nil => simp [splitChar]
  | cons c cs =>
    simp only [splitChar]
    by_cases hc : c = sep
    · simp [hc]
    · simp only [hc, if_false]
      cases splitChar sep cs <;> simp

theorem splitChar_no_sep {sep : Char} {l : List Char} (h : ∀ c ∈ l, c ≠ sep) :
    splitChar sep l = [l] := by
  induction l with
  | nil => rfl
  | cons c cs ih =>
    have hc := h c (by simp)
    simp only [splitChar, hc, if_false]
    rw [ih fun d hd => h d (by simp [hd])]

theorem splitChar_append_sep {sep : Char} {a : List Char} (b : List Char)
    (h : ∀ c ∈ a, c ≠ sep) : splitChar sep (a ++ sep :: b) = a :: splitChar sep b := by
  induction a with
  | nil => simp [splitChar]
  | cons c cs ih =>
    have hc := h c (by simp)
    have ih2 := ih fun d hd => h d (by simp [hd])
    simp only [List.cons_append, splitChar, if_neg hc, List.append_eq]
    rw [ih2]

theorem splitChar_mem {sep : Char} {l piece : List Char} {c : Char}
    (hp : piece ∈ splitChar sep l) (hc : c ∈ piece) : c ∈ l := by
  induction l generalizing piece with
  | nil =>
    simp only [splitChar, List.mem_singleton] at hp
    subst hp
    simp at hc
  | cons d ds ih =>
    simp only [splitChar] at hp
    by_cases hd : d = sep
    · rw [if_pos hd] at hp
      rcases List.mem_cons.mp hp with hp | hp
      · subst hp; simp at hc
      · exact List.mem_cons_of_mem _ (ih hp hc)
    · rw [if_neg hd] at hp
      cases hsc : splitChar sep ds with
      | nil => exact absurd hsc (splitChar_ne_nil sep ds)
      | cons p ps =>
        rw [hsc] at hp
        rcases List.mem_cons.mp hp with hp | hp
        · subst hp
          rcases List.mem_cons.mp hc with hc | hc
          · simp [hc]
          · exact List.mem_cons_of_mem _ (ih (by simp [hsc]) hc)
        · exact List.mem_cons_of_mem _ (ih (by simp [hsc, hp]) hc)

theorem splitChar_joinSep {sep : Char} {xs : List (List Char)} (hne : xs ≠ [])
    (h : ∀ s ∈ xs, ∀ c ∈ s, c ≠ sep) : splitChar sep (joinSep [sep] xs) = xs := by
  induction xs with
  | nil => exact absurd rfl hne
  | cons x ys ih =>
    cases ys with
    | nil => exact splitChar_no_sep (h x (by simp))
    | cons y zs =>
      have hx : joinSep [sep] (x :: y :: zs) = x ++ sep :: joinSep [sep] (y :: zs) := by
        simp [joinSep]
      rw [hx, splitChar_append_sep _ (h x (by simp)),
        ih (by simp) fun s hs => h s (by simp [List.mem_cons.mp hs])]

theorem joinSep_mem {sep : List Char} {xs : List (List Char)} {c : Char}
    (h : c ∈ joinSep sep xs) : c ∈ sep ∨ ∃ x ∈ xs, c ∈ x := by
  induction xs with
  | nil => simp [joinSep] at h
  | cons x ys ih =>
    cases ys with
    | nil =>
      right
      exact ⟨x, by simp, by simpa [joinSep] using h⟩
    | cons y zs =>
      simp only [joinSep, List.append_assoc, List.mem_append] at h
      rcases h with h | h | h
      · exact Or.inr ⟨x, by simp, h⟩
      · exact Or.inl h
      · rcases ih h with h2 | ⟨z, hz, hcz⟩
        · exact Or.inl h2
        · exact Or.inr ⟨z, by simp [List.mem_cons.mp hz], hcz⟩

/-! Lemmas about `terminator`. -/

theorem terminator_append {xs ys : List Char} (h : 2 ≤ ys.length) :
    terminator (xs ++ ys) = terminator ys := by
  match ys, h with
  | y₁ :: y₂ :: yt, _ =>
    unfold terminator
    rw [List.reverse_append]
    rcases hr : (y₁ :: y₂ :: yt).reverse with _ | ⟨a, rest⟩
    · exact absurd (congrArg List.length hr) (by simp)
    · rcases rest with _ | ⟨b, rest2⟩
      · exact absurd (congrArg List.length hr) (by simp)
      · simp

theorem terminator_cons {t : List Char} (c : Char) (h : 2 ≤ t.length) :
    terminator (c :: t) = terminator t := by
  have : c :: t = [c] ++ t := rfl
  rw [this, terminator_append h]

theorem terminator_snoc {xs : List Char} (c : Char)
    (h : ∀ d, xs.getLast? = some d → d ≠ '\r') :
    terminator (xs ++ [c]) = if c = '\n' then ['\n'] else [] := by
  unfold terminator
  rw [List.reverse_append]
  simp only [List.reverse_cons, List.reverse_nil, List.nil_append, List.singleton_append]
  by_cases hc : c = '\n'
  · simp only [hc, if_pos rfl]
    cases hrx : xs.reverse with
    | nil => simp
    | cons d rest =>
      have hd : xs.getLast? = some d := by
        rw [← List.head?_reverse, hrx]; rfl
      simp [h d hd]
  · simp [hc]

theorem terminator_last_ne {l : List Char} {d : Char} (hl : l.getLast? = some d)
    (hd : d ≠ '\n') : terminator l = [] := by
  unfold terminator
  rw [← List.head?_reverse] at hl
  cases hr : l.reverse with
  | nil => simp
  | cons a rest =>
    rw [hr] at hl
    cases hl
    simp [hd]

theorem getLast?_mem {α : Type} {l : List α} {d : α} (h : l.getLast? = some d) : d ∈ l := by
  rw [← List.head?_reverse] at h
  cases hr : l.reverse with
  | nil => rw [hr] at h; cases h
  | cons a rest =>
    rw [hr] at h
    cases h
    have : d ∈ l.reverse := by simp [hr]
    simpa using this

theorem getq_some_lt {l : List Char} {n : Nat} {a : Char} (h : l.get? n = some a) :
    n < l.length := by
  rcases List.get?_eq_some.mp h with ⟨hlt, _⟩
  exact hlt

theorem take_ne_nil_of {l : List Char} {n : Nat} (hl : l ≠ []) (hn : 1 ≤ n) :
    l.take n ≠ [] := by
  cases l with
  | nil => exact absurd rfl hl
  | cons c cs =>
    cases n with
    | zero => omega
    | succ m => simp

theorem split_inclusive_ne_nil {s : List Char} : ∀ l ∈ split_inclusive s, l ≠ [] := by
  induction s with
  | nil => simp [split_inclusive]
  | cons c cs ih =>
    intro l hl
    simp only [split_inclusive] at hl
    by_cases hc : c = '\n'
    · rw [if_pos hc] at hl
      rcases List.mem_cons.mp hl with hl | hl
      · subst hl; simp
      · exact ih l hl
    · rw [if_neg hc] at hl
      cases hsc : split_inclusive cs with
      | nil =>
        rw [hsc] at hl
        simp only [List.mem_singleton] at hl
        subst hl; simp
      | cons x xs =>
        rw [hsc] at hl
        rcases List.mem_cons.mp hl with hl | hl
        · subst hl; simp
        · exact ih l (by simp [hsc, hl])

theorem takeWhile_pos_head {p : Char → Bool} {l : List Char}
    (h : 0 < (l.takeWhile p).length) : ∃ c cs, l = c :: cs ∧ p c = true := by
  cases l with
  | nil => simp at h
  | cons c cs =>
    by_cases hc : p c
    · exact ⟨c, cs, rfl, hc⟩
    · simp [List.takeWhile, hc] at h

/-! Evaluation helpers for single lines. -/

theorem takeWhile_cons_false {p : Char → Bool} {c : Char} (cs : List Char) (h : p c = false) :
    (c :: cs).takeWhile p = [] := by
  simp [List.takeWhile_cons, h]

theorem is_code_block_start_none {line : List Char}
    (h : (line.takeWhile (fun c => decide (c = backtick))).length ≤ 2) :
    is_code_block_start line = none := by
  simp only [is_code_block_start]
  rw [if_neg (by omega)]

theorem is_code_block_start_hash {c : Char} {cs : List Char} (h : c ≠ backtick) :
    is_code_block_start (c :: cs) = none := by
  apply is_code_block_start_none
  rw [takeWhile_cons_false cs (by simpa using h)]
  simp

theorem convert_header_line_demote {line : List Char} {ifh : Bool} {n : Nat}
    (hn : n = (line.takeWhile (fun c => decide (c = '#'))).length) (h2 : 2 ≤ n)
    (hsp : line.get? n = some ' ') :
    convert_header_line line ifh = some (.ok (some (line.drop 1)), false) := by
  simp only [convert_header_line, ← hn]
  rw [if_pos (by omega : 0 < n), hsp]
  simp only []
  rw [if_pos trivial, if_neg (by omega : ¬ n = 1)]

theorem convert_header_line_nomatch {line : List Char} {ifh : Bool} {n : Nat} {ch : Char}
    (hn : n = (line.takeWhile (fun c => decide (c = '#'))).length)
    (hch : line.get? n = some ch) (hsp : ch ≠ ' ') :
    convert_header_line line ifh = some (.ok none, ifh) := by
  simp only [convert_header_line, ← hn]
  by_cases h0 : 0 < n
  · rw [if_pos h0, hch]
    simp only []
    rw [if_neg hsp]
  · rw [if_neg h0]

theorem convert_header_line_zero {line : List Char} {ifh : Bool}
    (hn : (line.takeWhile (fun c => decide (c = '#'))).length = 0) :
    convert_header_line line ifh = some (.ok none, ifh) := by
  simp only [convert_header_line]
  rw [if_neg (by omega)]

theorem convert_link_line_nonbracket {c : Char} {cs : List Char}
    (pkg : List Char) (version crate_name : Option (List Char)) (h : c ≠ '[') :
    convert_link_line (c :: cs) pkg version crate_name = some (.ok none) := by
  simp only [convert_link_line, List.get?]
  rw [if_neg h]

/-! C2: the header and link matchers are claimed total; the code indexes past
the end of an unterminated final line of `#`s and past a final `]`. -/

/-- C2: on the unterminated line `##`, `convert_header_line` evaluates
`bytes[level]` with `level = 2` past the end (a panic, modelled `none`), and on
the unterminated line `[x]`, `convert_link_line` evaluates
`bytes[close_bracket_pos + 1]` past the end; `rustdocify` panics on both
documents instead of copying the line verbatim. -/
theorem c2_matcher_out_of_bounds :
    convert_header_line ("##".toList) true = none ∧
    rustdocify ("##".toList) ("foo".toList) none none = none ∧
    convert_link_line ("[x]".toList) ("foo".toList) none none = none ∧
    rustdocify ("[x]".toList) ("foo".toList) none none = none := by
  refine ⟨by decide, by decide, by decide, by decide⟩

/-! C6: unrecognized filenames are claimed to fail with `UnrecognizedUrl`; the
filename `enum.html` instead makes the slice
`&filename[prefix.len()..filename.len() - 5]` panic (start 5, end 4). -/

/-- C6: on the URL `https://docs.rs/foo/*/foo/enum.html` (package `foo`), whose
filename ends in `.html` but is not of the `kind.Name.html` form, `convert_url`
panics (modelled `none`) instead of returning `UnrecognizedUrl`; the same holds
through `rustdocify`, and likewise for the other three kind markers. -/
theorem c6_kind_slice_out_of_bounds :
    convert_url ("https://docs.rs/foo/*/foo/enum.html".toList) ("foo".toList) none none =
      none ∧
    rustdocify ("[x]: https://docs.rs/foo/*/foo/enum.html".toList) ("foo".toList) none none =
      none ∧
    convert_url ("https://docs.rs/foo/*/foo/fn.html".toList) ("foo".toList) none none = none ∧
    convert_url ("https://docs.rs/foo/*/foo/struct.html".toList) ("foo".toList) none none =
      none ∧
    convert_url ("https://docs.rs/foo/*/foo/trait.html".toList) ("foo".toList) none none =
      none := by
  refine ⟨by decide, by decide, by decide, by decide, by decide⟩

/-- C1 counterexample: on `# A\nb` the whole header line, terminator included,
is removed: the output is `b`, one line rather than the input's two. -/
theorem c1_counterexample :
    rustdocify ("# A\nb".toList) ("foo".toList) none none = some (.ok ("b".toList)) ∧
    (split_inclusive ("# A\nb".toList)).length = 2 ∧
    (split_inclusive ("b".toList)).length = 1 := by
  refine ⟨by decide, by decide, by decide⟩

/-- C3 counterexample: `## A\n# B` has exactly one top-level header, appearing
before any other top-level header, yet `rustdocify` does not remove it from any
output: it fails, because the earlier level-2 header already consumed the
first-header flag. -/
theorem c3_counterexample :
    rustdocify ("## A\n# B".toList) ("foo".toList) none none =
      some (.error (.NonFirstTopLevelHeader ("# B".toList))) := by decide

/-- C4 counterexample: the unterminated line `#` starts with `#` characters not
followed by a space, yet it is not copied through unchanged: the matcher's
out-of-bounds index makes `rustdocify` panic (modelled `none`). -/
theorem c4_counterexample :
    convert_header_line ("#".toList) true = none ∧
    rustdocify ("#".toList) ("foo".toList) none none = none := by
  refine ⟨by decide, by decide⟩

/-- C10 counterexample: `# A\n# B\n<fence>\nx` contains a fence-opening line
that no later line closes, yet `rustdocify` does not succeed: the duplicate
top-level header before the fence aborts the run. -/
theorem c10_counterexample :
    rustdocify ("# A\n# B\n```\nx".toList) ("foo".toList) none none =
      some (.error (.NonFirstTopLevelHeader ("# B\n".toList))) := by decide

/-! C4: header demotion outside code fences. -/

/-- C4 (amended): outside a code fence, a line whose leading `#` run has length
at least 2 and is followed by a space is emitted with exactly one leading `#`
removed and the rest unchanged, and a line whose leading `#` run is followed by
a character other than a space is copied through unchanged (a line whose `#`
run reaches the end of the line instead hits the matcher's out-of-bounds
index, see the C4 counterexample). -/
theorem c4_header_demotion (pkg : List Char) (version crate_name : Option (List Char))
    (st : ScanState) (line : List Char) (hcb : st.cbl = none) :
    (∀ n, n = (line.takeWhile (fun c => decide (c = '#'))).length → 2 ≤ n →
      line.get? n = some ' ' →
      rustdocify_step pkg version crate_name st line =
        some (.ok (line.drop 1, ⟨false, none⟩))) ∧
    (∀ n ch, n = (line.takeWhile (fun c => decide (c = '#'))).length → 1 ≤ n →
      line.get? n = some ch → ch ≠ ' ' →
      rustdocify_step pkg version crate_name st line =
        some (.ok (line, ⟨st.ifh, none⟩))) := by
  constructor
  · intro n hn h2 hsp
    obtain ⟨c, cs, rfl, hc⟩ := takeWhile_pos_head (l := line) (hn ▸ (show 0 < n by omega))
    have hc2 : c = '#' := of_decide_eq_true hc
    subst hc2
    have hfence := @is_code_block_start_hash '#' cs (by decide)
    have hhdr := @convert_header_line_demote ('#' :: cs) st.ifh n hn h2 hsp
    simp [rustdocify_step, hcb, hfence, hhdr]
  · intro n ch hn h1 hch hsp
    obtain ⟨c, cs, rfl, hc⟩ := takeWhile_pos_head (l := line) (hn ▸ (show 0 < n by omega))
    have hc2 : c = '#' := of_decide_eq_true hc
    subst hc2
    have hfence := @is_code_block_start_hash '#' cs (by decide)
    have hhdr := @convert_header_line_nomatch ('#' :: cs) st.ifh n ch hn hch hsp
    have hlink := @convert_link_line_nonbracket '#' cs pkg version crate_name
      (by decide)
    simp [rustdocify_step, hcb, hfence, hhdr, hlink]

/-- Witness for C4: the line `## x` (with terminator) is demoted to `# x`, and
the line `#x` is copied through unchanged. -/
theorem c4_header_demotion_witness :
    (ScanState.mk true none).cbl = none ∧
    (("## x\n".toList.takeWhile (fun c => decide (c = '#'))).length = 2 ∧
      "## x\n".toList.get? 2 = some ' ') ∧
    rustdocify_step ("foo".toList) none none ⟨true, none⟩ ("## x\n".toList) =
      some (.ok ("# x\n".toList, ⟨false, none⟩)) ∧
    rustdocify_step ("foo".toList) none none ⟨true, none⟩ ("#x\n".toList) =
      some (.ok ("#x\n".toList, ⟨true, none⟩)) := by
  refine ⟨rfl, ⟨by decide, by decide⟩, ?_, ?_⟩
  · have h := (c4_header_demotion ("foo".toList) none none ⟨true, none⟩ ("## x\n".toList)
      rfl).1 2 (by decide) (by decide) (by decide)
    simpa using h
  · have h := (c4_header_demotion ("foo".toList) none none ⟨true, none⟩ ("#x\n".toList)
      rfl).2 1 'x' (by decide) (by decide) (by decide) (by decide)
    simpa using h

/-! C5: code-fence opacity. -/

theorem all_ticks_iff (n : Nat) (l : List Char) :
    all_ticks n l = true ↔ (n ≤ l.length ∧ ∀ i, i < n → l.get? i = some backtick) := by
  induction n generalizing l with
  | zero => simp [all_ticks]
  | succ m ih =>
    cases l with
    | nil => simp [all_ticks]
    | cons c cs =>
      simp only [all_ticks]
      by_cases hc : c = backtick
      · subst hc
        rw [if_pos rfl, ih cs]
        constructor
        · rintro ⟨hlen, hall⟩
          refine ⟨by simpa using Nat.succ_le_succ hlen, ?_⟩
          intro i hi
          cases i with
          | zero => rfl
          | succ j => exact hall j (by omega)
        · rintro ⟨hlen, hall⟩
          refine ⟨by simpa using Nat.le_of_succ_le_succ (by simpa using hlen), ?_⟩
          intro i hi
          exact hall (i + 1) (by omega)
      · rw [if_neg hc]
        simp only [Bool.false_eq_true, false_iff]
        rintro ⟨hlen, hall⟩
        exact hc (by simpa using hall 0 (by omega))

/-- C5: inside an open fence of width `w` every line is copied verbatim with no
conversion and no error, and the fence closes exactly when the line's first `w`
characters are all fence markers; outside a fence a leading marker run of
length at least 3 opens a fence of exactly that width, with the opening line
copied verbatim; a run of length at most 2 never opens a fence. -/
theorem c5_code_fences (pkg : List Char) (version crate_name : Option (List Char)) :
    (∀ st w line, st.cbl = some w →
      rustdocify_step pkg version crate_name st line =
        some (.ok (line, ⟨st.ifh, if is_code_block_end line w then none else some w⟩))) ∧
    (∀ st line, st.cbl = none →
      3 ≤ (line.takeWhile (fun c => decide (c = backtick))).length →
      rustdocify_step pkg version crate_name st line =
        some (.ok (line,
          ⟨st.ifh, some ((line.takeWhile (fun c => decide (c = backtick))).length)⟩))) ∧
    (∀ line, (line.takeWhile (fun c => decide (c = backtick))).length ≤ 2 →
      is_code_block_start line = none) ∧
    (∀ line w, is_code_block_end line w = true ↔
      (w ≤ line.length ∧ ∀ i, i < w → line.get? i = some backtick)) := by
  refine ⟨?_, ?_, ?_, ?_⟩
  · intro st w line h
    simp [rustdocify_step, h]
  · intro st line h h3
    simp [rustdocify_step, h, is_code_block_start, if_pos h3]
  · intro line h
    exact is_code_block_start_none h
  · intro line w
    simp only [is_code_block_end]
    by_cases hlen : line.length < w
    · rw [if_pos hlen]
      simp only [Bool.false_eq_true, false_iff]
      rintro ⟨hle, _⟩
      omega
    · rw [if_neg hlen]
      exact all_ticks_iff w line

/-- Witness for C5: a header-looking line inside a width-3 fence is copied
verbatim and closes nothing; a line of four fence markers opens a width-4
fence; two markers open nothing; the close test on a width-3 fence. -/
theorem c5_code_fences_witness :
    (ScanState.mk true (some 3)).cbl = some 3 ∧
    rustdocify_step ("foo".toList) none none ⟨true, some 3⟩ ("## a\n".toList) =
      some (.ok ("## a\n".toList, ⟨true, some 3⟩)) ∧
    rustdocify_step ("foo".toList) none none ⟨true, none⟩ ("````rs\n".toList) =
      some (.ok ("````rs\n".toList, ⟨true, some 4⟩)) ∧
    is_code_block_start ("``x\n".toList) = none ∧
    (is_code_block_end ("```py\n".toList) 3 = true ↔
      (3 ≤ ("```py\n".toList).length ∧
        ∀ i, i < 3 → ("```py\n".toList).get? i = some backtick)) := by
  refine ⟨rfl, ?_, ?_, ?_, ?_⟩
  · have h := (c5_code_fences ("foo".toList) none none).1 ⟨true, some 3⟩ 3 ("## a\n".toList) rfl
    rw [h]
    decide
  · have h := (c5_code_fences ("foo".toList) none none).2.1 ⟨true, none⟩ ("````rs\n".toList)
      rfl (by decide)
    rw [h]
    decide
  · exact (c5_code_fences ("foo".toList) none none).2.2.1 ("``x\n".toList) (by decide)
  · exact (c5_code_fences ("foo".toList) none none).2.2.2 ("```py\n".toList) 3

/-! C8: URLs outside the package's documentation prefix pass through. -/

theorem get_append_len (a b : List Char) : (a ++ b).get? a.length = b.get? 0 := by
  rw [List.get?_append_right (le_refl a.length), Nat.sub_self]

/-- C8: a URL that does not start with `https://docs.rs/<package_name>` is
returned unchanged, and so is one that extends that prefix with a character
other than `/` or `#`; the `foobar` link line passes through whole. -/
theorem c8_foreign_urls (url pkg : List Char) (version crate_name : Option (List Char)) :
    (starts_with url ("https://docs.rs/".toList ++ pkg) = false →
      convert_url url pkg version crate_name = some (.ok url)) ∧
    (∀ ch rest, ch ≠ '/' → ch ≠ '#' →
      convert_url ("https://docs.rs/".toList ++ pkg ++ ch :: rest) pkg version crate_name =
        some (.ok ("https://docs.rs/".toList ++ pkg ++ ch :: rest))) ∧
    (rustdocify ("[x]: https://docs.rs/foobar".toList) ("foo".toList) none none =
      some (.ok ("[x]: https://docs.rs/foobar".toList))) := by
  refine ⟨?_, ?_, by decide⟩
  · intro h
    simp only [convert_url]
    rw [if_pos h]
  · intro ch rest hs hh
    have hsw := starts_with_append_self ("https://docs.rs/".toList ++ pkg) (ch :: rest)
    have hne : ¬ (starts_with (("https://docs.rs/".toList ++ pkg) ++ ch :: rest)
        ("https://docs.rs/".toList ++ pkg) = false) := by
      rw [hsw]; decide
    have hlen : ¬ ((("https://docs.rs/".toList ++ pkg) ++ ch :: rest).length =
        ("https://docs.rs/".toList ++ pkg).length) := by
      simp [List.length_append]
    have hget : (("https://docs.rs/".toList ++ pkg) ++ ch :: rest).get?
        ("https://docs.rs/".toList ++ pkg).length = some ch := by
      rw [get_append_len]
      rfl
    simp only [convert_url]
    rw [if_neg hne, if_neg hlen, hget]
    simp only []
    rw [if_neg hs, if_neg hh]

/-- Witness for C8: a link to another site and the `foobar` prefix-overlap
link are both returned unchanged. -/
theorem c8_foreign_urls_witness :
    starts_with ("https://example.com/foo".toList)
      ("https://docs.rs/".toList ++ "foo".toList) = false ∧
    convert_url ("https://example.com/foo".toList) ("foo".toList) none none =
      some (.ok ("https://example.com/foo".toList)) ∧
    convert_url ("https://docs.rs/".toList ++ "foo".toList ++ 'b' :: ("ar".toList))
      ("foo".toList) none none =
      some (.ok ("https://docs.rs/".toList ++ "foo".toList ++ 'b' :: ("ar".toList))) := by
  refine ⟨by decide, ?_, ?_⟩
  · exact (c8_foreign_urls ("https://example.com/foo".toList) ("foo".toList) none none).1
      (by decide)
  · exact (c8_foreign_urls ("https://docs.rs/foobar".toList) ("foo".toList) none none).2.1
      'b' ("ar".toList) (by decide) (by decide)

/-! Composition lemmas for the `rustdocify` loop. -/

theorem run_append (pkg : List Char) (version crate_name : Option (List Char))
    (ls₁ ls₂ : List (List Char)) (st : ScanState) :
    rustdocify_run pkg version crate_name st (ls₁ ++ ls₂) =
      match rustdocify_run pkg version crate_name st ls₁ with
      | none => none
      | some (.error e) => some (.error e)
      | some (.ok (out, st2)) =>
        match rustdocify_run pkg version crate_name st2 ls₂ with
        | none => none
        | some (.error e) => some (.error e)
        | some (.ok (out2, st3)) => some (.ok (out ++ out2, st3)) := by
  induction ls₁ generalizing st with
  | nil =>
    simp only [List.nil_append, rustdocify_run]
    cases rustdocify_run pkg version crate_name st ls₂ with
    | none => rfl
    | some r =>
      cases r with
      | error e => rfl
      | ok p => simp
  | cons l ls ih =>
    simp only [List.cons_append, rustdocify_run]
    cases rustdocify_step pkg version crate_name st l with
    | none => rfl
    | some r =>
      cases r with
      | error e => rfl
      | ok p =>
        obtain ⟨out, st2⟩ := p
        simp only [List.append_eq]
        rw [ih st2]
        cases rustdocify_run pkg version crate_name st2 ls with
        | none => rfl
        | some r2 =>
          cases r2 with
          | error e => rfl
          | ok p2 =>
            obtain ⟨o2, st3⟩ := p2
            simp only []
            cases rustdocify_run pkg version crate_name st3 ls₂ with
            | none => rfl
            | some r3 =>
              cases r3 with
              | error e => rfl
              | ok p3 => simp

theorem step_top_header {pkg : List Char} {version crate_name : Option (List Char)}
    {st : ScanState} {line : List Char} (hcb : st.cbl = none)
    (h0 : line.get? 0 = some '#') (h1 : line.get? 1 = some ' ') :
    rustdocify_step pkg version crate_name st line =
      if st.ifh then some (.ok ([], ⟨false, none⟩))
      else some (.error (.NonFirstTopLevelHeader line)) := by
  obtain ⟨ifh, cbl⟩ := st
  simp only at hcb
  subst hcb
  cases line with
  | nil => cases h0
  | cons c rest =>
    have hc : c = '#' := by
      have : some c = some '#' := h0
      injection this
    subst hc
    cases rest with
    | nil => cases h1
    | cons d rest2 =>
      have hd : d = ' ' := by
        have : some d = some ' ' := h1
        injection this
      subst hd
      cases ifh <;> rfl

/-! C3: consumption of the first top-level header and the
`NonFirstTopLevelHeader` error. -/

/-- C3 (amended): when processing reaches (without earlier error or panic) a
top-level header line outside any code fence, then: if no header of any level
was seen before, the header line is consumed — it contributes nothing to the
output, terminator included — and the first-header flag is cleared; otherwise
the run aborts at once with `NonFirstTopLevelHeader` carrying the full original
line text, whatever lines follow. -/
theorem c3_top_level_header (pkg : List Char) (version crate_name : Option (List Char))
    (pre : List (List Char)) (line out1 : List Char) (st1 : ScanState)
    (h : rustdocify_run pkg version crate_name ⟨true, none⟩ pre = some (.ok (out1, st1)))
    (hcb : st1.cbl = none)
    (h0 : line.get? 0 = some '#') (h1 : line.get? 1 = some ' ') :
    (st1.ifh = true →
      rustdocify_run pkg version crate_name ⟨true, none⟩ (pre ++ [line]) =
        some (.ok (out1, ⟨false, none⟩))) ∧
    (st1.ifh = false → ∀ post,
      rustdocify_run pkg version crate_name ⟨true, none⟩ (pre ++ line :: post) =
        some (.error (.NonFirstTopLevelHeader line))) := by
  constructor
  · intro hifh
    rw [run_append, h]
    simp only []
    rw [rustdocify_run, step_top_header hcb h0 h1, hifh]
    simp [rustdocify_run]
  · intro hifh post
    rw [run_append, h]
    simp only []
    rw [rustdocify_run, step_top_header hcb h0 h1, hifh]
    simp

/-- Witness for C3: after the level-2 header `## A`, the top-level header line
`# B` aborts with `NonFirstTopLevelHeader`; after a plain line `x`, the
top-level header `# B` is consumed, leaving only `x` in the output. -/
theorem c3_top_level_header_witness :
    (rustdocify_run ("foo".toList) none none ⟨true, none⟩ [("## A\n".toList)] =
        some (.ok ("# A\n".toList, ⟨false, none⟩)) ∧
      rustdocify_run ("foo".toList) none none ⟨true, none⟩
          ([("## A\n".toList)] ++ ("# B".toList) :: []) =
        some (.error (.NonFirstTopLevelHeader ("# B".toList)))) ∧
    (rustdocify_run ("foo".toList) none none ⟨true, none⟩ [("x\n".toList)] =
        some (.ok ("x\n".toList, ⟨true, none⟩)) ∧
      rustdocify_run ("foo".toList) none none ⟨true, none⟩
          ([("x\n".toList)] ++ [("# B".toList)]) =
        some (.ok ("x\n".toList, ⟨false, none⟩))) := by
  constructor
  · refine ⟨by decide, ?_⟩
    exact (c3_top_level_header ("foo".toList) none none [("## A\n".toList)] ("# B".toList)
      ("# A\n".toList) ⟨false, none⟩ (by decide) rfl (by decide) (by decide)).2 rfl []
  · refine ⟨by decide, ?_⟩
    exact (c3_top_level_header ("foo".toList) none none [("x\n".toList)] ("# B".toList)
      ("x\n".toList) ⟨true, none⟩ (by decide) rfl (by decide) (by decide)).1 rfl

/-! C10: an unterminated code fence is not an error. -/

theorem is_code_block_start_pos {line : List Char}
    (h : 3 ≤ (line.takeWhile (fun c => decide (c = backtick))).length) :
    is_code_block_start line =
      some ((line.takeWhile (fun c => decide (c = backtick))).length) := by
  simp only [is_code_block_start]
  rw [if_pos h]

theorem run_in_fence (pkg : List Char) (version crate_name : Option (List Char))
    (w : Nat) (f : Bool) :
    ∀ post, (∀ l ∈ post, is_code_block_end l w = false) →
      rustdocify_run pkg version crate_name ⟨f, some w⟩ post =
        some (.ok (post.flatten, ⟨f, some w⟩))
  | [], _ => by simp [rustdocify_run]
  | l :: ls, h => by
    have hstep : rustdocify_step pkg version crate_name ⟨f, some w⟩ l =
        some (.ok (l, ⟨f, some w⟩)) := by
      simp [rustdocify_step, h l (by simp)]
    rw [rustdocify_run, hstep]
    simp only []
    rw [run_in_fence pkg version crate_name w f ls fun x hx => h x (by simp [hx])]
    simp

/-- C10 (amended): when processing reaches (without earlier error or panic), a
fence-opening line outside any fence — leading marker run of width `W ≥ 3` —
and no later line's first `W` characters are all fence markers, the run still
succeeds: the opening line and every following line are appended verbatim, and
the fence simply stays open to the end. -/
theorem c10_unterminated_fence (pkg : List Char) (version crate_name : Option (List Char))
    (pre : List (List Char)) (openl : List Char) (post : List (List Char))
    (out1 : List Char) (st1 : ScanState)
    (h : rustdocify_run pkg version crate_name ⟨true, none⟩ pre = some (.ok (out1, st1)))
    (hcb : st1.cbl = none)
    (hw : 3 ≤ (openl.takeWhile (fun c => decide (c = backtick))).length)
    (hpost : ∀ l ∈ post,
      is_code_block_end l ((openl.takeWhile (fun c => decide (c = backtick))).length) =
        false) :
    rustdocify_run pkg version crate_name ⟨true, none⟩ (pre ++ openl :: post) =
      some (.ok (out1 ++ openl ++ post.flatten,
        ⟨st1.ifh, some ((openl.takeWhile (fun c => decide (c = backtick))).length)⟩)) := by
  obtain ⟨ifh1, cbl1⟩ := st1
  simp only at hcb
  subst hcb
  rw [run_append, h]
  simp only []
  have hstep : rustdocify_step pkg version crate_name ⟨ifh1, none⟩ openl =
      some (.ok (openl,
        ⟨ifh1, some ((openl.takeWhile (fun c => decide (c = backtick))).length)⟩)) := by
    simp [rustdocify_step, is_code_block_start_pos hw]
  rw [rustdocify_run, hstep]
  simp only []
  rw [run_in_fence pkg version crate_name _ ifh1 post hpost]
  simp [List.append_assoc]

/-- Witness for C10: after the line `a`, a three-backtick fence line followed
by a header-looking line and no closing line still succeeds, all copied
verbatim. -/
theorem c10_unterminated_fence_witness :
    rustdocify_run ("foo".toList) none none ⟨true, none⟩ [("a\n".toList)] =
      some (.ok ("a\n".toList, ⟨true, none⟩)) ∧
    rustdocify_run ("foo".toList) none none ⟨true, none⟩
        ([("a\n".toList)] ++ ("```\n".toList) :: [("# x\n".toList), ("y".toList)]) =
      some (.ok ("a\n".toList ++ "```\n".toList ++ [("# x\n".toList), ("y".toList)].flatten,
        ⟨true, some 3⟩)) := by
  refine ⟨by decide, ?_⟩
  have h := c10_unterminated_fence ("foo".toList) none none [("a\n".toList)]
    ("```\n".toList) [("# x\n".toList), ("y".toList)] ("a\n".toList) ⟨true, none⟩
    (by decide) rfl (by decide) (by decide)
  simpa using h

/-! C9: version checks of `convert_url`. -/

theorem starts_with_self (l : List Char) : starts_with l l = true := by
  have h := starts_with_append_self l []
  simpa using h

theorem lit_no_hash : ∀ c ∈ "https://docs.rs/".toList, decide (c = '#') = false := by decide

theorem pfx_no_hash {pkg : List Char} (hpkg : ∀ ch ∈ pkg, ch ≠ '#') :
    ∀ c ∈ "https://docs.rs/".toList ++ pkg, decide (c = '#') = false := by
  intro c hc
  rcases List.mem_append.mp hc with hc | hc
  · exact lit_no_hash c hc
  · exact decide_eq_false (hpkg c hc)

theorem take_append_cons (w : List Char) (c : Char) (t : List Char) (m : Nat) :
    (w ++ c :: t).take (w.length + (m + 1)) = w ++ c :: t.take m := by
  induction w with
  | nil => simp
  | cons a ws ih =>
    simp only [List.cons_append, List.length_cons]
    rw [show ws.length + 1 + (m + 1) = (ws.length + (m + 1)) + 1 by omega]
    rw [List.take_succ_cons, ih]

theorem drop_after_slash (pfx x : List Char) :
    ((pfx ++ ['/']) ++ x).drop (pfx.length + 1) = x := by
  rw [show pfx.length + 1 = (pfx ++ ['/']).length by simp]
  exact List.drop_left _ _

theorem convert_url_path_wrong_version {url v : List Char} {cr : Option (List Char)}
    {w : List Char} {rest : List (List Char)} {frag : Option (List Char)}
    (hw : w ≠ []) (hne : w ≠ v) :
    convert_url_path url (some v) cr (w :: rest) frag =
      some (.error (.WrongVersionInUrl url)) := by
  simp only [convert_url_path]
  have hhead : ∃ tl, (if (w :: rest).getLast? = some ([] : List Char) then
      (w :: rest).dropLast else (w :: rest)) = w :: tl := by
    by_cases hl : (w :: rest).getLast? = some ([] : List Char)
    · rw [if_pos hl]
      cases rest with
      | nil =>
        simp only [List.getLast?_singleton, Option.some.injEq] at hl
        exact absurd hl hw
      | cons r rs => exact ⟨(r :: rs).dropLast, by simp⟩
    · rw [if_neg hl]
      exact ⟨rest, rfl⟩
  obtain ⟨tl, htl⟩ := hhead
  rw [htl]
  rw [if_neg (by simp : ¬ (w :: tl).length = 0)]
  have hmm : opt_mismatch (some v) ((w :: tl).getD 0 []) = true := by
    simp only [List.getD_cons_zero, opt_mismatch]
    rw [if_neg hne]
  rw [if_pos hmm]

/-- C9: with a required version, a URL naming only the package root — bare,
with a trailing slash, with only a fragment, or with slash and fragment —
fails with `MissingVersionInUrl`; a URL whose first path segment is not the
required version fails with `WrongVersionInUrl`; and the concrete document
`[x]: https://docs.rs/foo` with required version `0.1.0` yields
`MissingVersionInUrl("https://docs.rs/foo")`. -/
theorem c9_version_checks (pkg v : List Char) (crate_name : Option (List Char))
    (hpkg : ∀ ch ∈ pkg, ch ≠ '#') :
    (convert_url ("https://docs.rs/".toList ++ pkg) pkg (some v) crate_name =
      some (.error (.MissingVersionInUrl ("https://docs.rs/".toList ++ pkg)))) ∧
    (convert_url ("https://docs.rs/".toList ++ pkg ++ ['/']) pkg (some v) crate_name =
      some (.error (.MissingVersionInUrl ("https://docs.rs/".toList ++ pkg ++ ['/'])))) ∧
    (∀ f, convert_url ("https://docs.rs/".toList ++ pkg ++ '#' :: f) pkg (some v) crate_name =
      some (.error (.MissingVersionInUrl ("https://docs.rs/".toList ++ pkg ++ '#' :: f)))) ∧
    (∀ f,
      convert_url ("https://docs.rs/".toList ++ pkg ++ '/' :: '#' :: f) pkg (some v)
          crate_name =
        some (.error
          (.MissingVersionInUrl ("https://docs.rs/".toList ++ pkg ++ '/' :: '#' :: f)))) ∧
    (∀ w tail, w ≠ [] → (∀ ch ∈ w, ch ≠ '/' ∧ ch ≠ '#') → w ≠ v →
      (tail = [] ∨ (∃ t, tail = '/' :: t) ∨ (∃ t, tail = '#' :: t)) →
      convert_url ("https://docs.rs/".toList ++ pkg ++ '/' :: (w ++ tail)) pkg (some v)
          crate_name =
        some (.error
          (.WrongVersionInUrl ("https://docs.rs/".toList ++ pkg ++ '/' :: (w ++ tail))))) ∧
    (rustdocify ("[x]: https://docs.rs/foo".toList) ("foo".toList) (some ("0.1.0".toList))
        none =
      some (.error (.MissingVersionInUrl ("https://docs.rs/foo".toList)))) := by
  have hsw0 := starts_with_self ("https://docs.rs/".toList ++ pkg)
  refine ⟨?_, ?_, ?_, ?_, ?_, by decide⟩
  · simp only [convert_url]
    rw [if_neg (by rw [hsw0]; decide), if_pos trivial]
    simp only [convert_url_frag]
    rw [find_index_none_of (pfx_no_hash hpkg), List.drop_length]
    rfl
  · simp only [convert_url]
    rw [if_neg (by rw [starts_with_append_self]; decide),
      if_neg (by simp : ¬ ("https://docs.rs/".toList ++ pkg ++ ['/']).length =
        ("https://docs.rs/".toList ++ pkg).length),
      get_append_len]
    simp only [List.get?]
    rw [if_pos trivial]
    simp only [convert_url_frag]
    rw [find_index_none_of ?hno]
    case hno =>
      intro c hc
      rcases List.mem_append.mp hc with hc | hc
      · exact pfx_no_hash hpkg c hc
      · simp only [List.mem_singleton] at hc
        subst hc
        decide
    rw [show ("https://docs.rs/".toList ++ pkg).length + 1 =
      ("https://docs.rs/".toList ++ pkg ++ ['/']).length by simp, List.drop_length]
    rfl
  · intro f
    simp only [convert_url]
    rw [if_neg (by rw [starts_with_append_self]; decide),
      if_neg (by simp : ¬ ("https://docs.rs/".toList ++ pkg ++ '#' :: f).length =
        ("https://docs.rs/".toList ++ pkg).length),
      get_append_len]
    simp only [List.get?]
    rw [if_neg (by decide : ¬ ('#' : Char) = '/'), if_pos trivial]
    simp only [convert_url_frag]
    rw [find_index_append ('#' :: f) (pfx_no_hash hpkg)]
    simp only [find_index]
    rw [if_pos (by decide)]
    simp only [Option.map_some', Nat.zero_add]
    rw [if_neg (by omega), Nat.sub_self, List.take_zero]
    rfl
  · intro f
    simp only [convert_url]
    rw [if_neg (by rw [starts_with_append_self]; decide),
      if_neg (by simp : ¬ ("https://docs.rs/".toList ++ pkg ++ '/' :: '#' :: f).length =
        ("https://docs.rs/".toList ++ pkg).length),
      get_append_len]
    simp only [List.get?]
    rw [if_pos trivial]
    simp only [convert_url_frag]
    rw [show "https://docs.rs/".toList ++ pkg ++ '/' :: '#' :: f =
      ("https://docs.rs/".toList ++ pkg ++ ['/']) ++ '#' :: f by simp]
    rw [find_index_append ('#' :: f) ?hno2]
    case hno2 =>
      intro c hc
      rcases List.mem_append.mp hc with hc | hc
      · exact pfx_no_hash hpkg c hc
      · simp only [List.mem_singleton] at hc
        subst hc
        decide
    simp only [find_index]
    rw [if_pos (by decide)]
    simp only [Option.map_some', Nat.zero_add, List.length_append, List.length_singleton]
    rw [if_neg (by omega)]
    rw [Nat.sub_self, List.take_zero]
    rfl
  · intro w tail hw hwc hne htail
    simp only [convert_url]
    rw [if_neg (by rw [starts_with_append_self]; decide),
      if_neg (by simp : ¬ ("https://docs.rs/".toList ++ pkg ++ '/' :: (w ++ tail)).length =
        ("https://docs.rs/".toList ++ pkg).length),
      get_append_len]
    simp only [List.get?]
    rw [if_pos trivial]
    simp only [convert_url_frag]
    have hwnh : ∀ c ∈ w, decide (c = '#') = false := fun c hc =>
      decide_eq_false (hwc c hc).2
    have hwns : ∀ c ∈ w, c ≠ '/' := fun c hc => (hwc c hc).1
    rcases htail with rfl | ⟨t, rfl⟩ | ⟨t, rfl⟩
    · rw [List.append_nil]
      rw [find_index_none_of ?hno3]
      case hno3 =>
        intro c hc
        rw [show "https://docs.rs/".toList ++ pkg ++ '/' :: w =
          ("https://docs.rs/".toList ++ pkg ++ ['/']) ++ w by simp] at hc
        rcases List.mem_append.mp hc with hc | hc
        · rcases List.mem_append.mp hc with hc | hc
          · exact pfx_no_hash hpkg c hc
          · simp only [List.mem_singleton] at hc
            subst hc
            decide
        · exact hwnh c hc
      rw [show "https://docs.rs/".toList ++ pkg ++ '/' :: w =
        (("https://docs.rs/".toList ++ pkg) ++ ['/']) ++ w by simp, drop_after_slash,
        splitChar_no_sep hwns]
      exact convert_url_path_wrong_version hw hne
    · rw [show "https://docs.rs/".toList ++ pkg ++ '/' :: (w ++ '/' :: t) =
        ((("https://docs.rs/".toList ++ pkg) ++ ['/']) ++ w ++ ['/']) ++ t by simp]
      rw [find_index_append t ?hno4]
      case hno4 =>
        intro c hc
        rcases List.mem_append.mp hc with hc | hc
        · rcases List.mem_append.mp hc with hc | hc
          · rcases List.mem_append.mp hc with hc | hc
            · exact pfx_no_hash hpkg c hc
            · simp only [List.mem_singleton] at hc
              subst hc
              decide
          · exact hwnh c hc
        · simp only [List.mem_singleton] at hc
          subst hc
          decide
      cases hft : find_index (fun c => decide (c = '#')) t with
      | none =>
        simp only [Option.map_none']
        rw [show (("https://docs.rs/".toList ++ pkg) ++ ['/']) ++ w ++ ['/'] ++ t =
          (("https://docs.rs/".toList ++ pkg) ++ ['/']) ++ (w ++ '/' :: t) by simp,
          drop_after_slash, splitChar_append_sep t hwns]
        exact convert_url_path_wrong_version hw hne
      | some m =>
        simp only [Option.map_some']
        rw [if_neg (by simp [List.length_append]; omega)]
        rw [show (("https://docs.rs/".toList ++ pkg) ++ ['/']) ++ w ++ ['/'] ++ t =
          (("https://docs.rs/".toList ++ pkg) ++ ['/']) ++ (w ++ '/' :: t) by simp,
          drop_after_slash]
        rw [show m + ((("https://docs.rs/".toList ++ pkg) ++ ['/']) ++ w ++ ['/']).length -
          (("https://docs.rs/".toList ++ pkg).length + 1) = w.length + (m + 1) by
            simp [List.length_append]; omega]
        rw [take_append_cons, splitChar_append_sep (t.take m) hwns]
        exact convert_url_path_wrong_version hw hne
    · rw [show "https://docs.rs/".toList ++ pkg ++ '/' :: (w ++ '#' :: t) =
        ((("https://docs.rs/".toList ++ pkg) ++ ['/']) ++ w) ++ '#' :: t by simp]
      rw [find_index_append ('#' :: t) ?hno5]
      case hno5 =>
        intro c hc
        rcases List.mem_append.mp hc with hc | hc
        · rcases List.mem_append.mp hc with hc | hc
          · exact pfx_no_hash hpkg c hc
          · simp only [List.mem_singleton] at hc
            subst hc
            decide
        · exact hwnh c hc
      simp only [find_index]
      rw [if_pos (by decide)]
      simp only [Option.map_some', Nat.zero_add]
      rw [if_neg (by simp [List.length_append])]
      rw [show ((("https://docs.rs/".toList ++ pkg) ++ ['/']) ++ w) ++ '#' :: t =
        (("https://docs.rs/".toList ++ pkg) ++ ['/']) ++ (w ++ '#' :: t) by simp,
        drop_after_slash]
      rw [show ((("https://docs.rs/".toList ++ pkg) ++ ['/']) ++ w).length -
        (("https://docs.rs/".toList ++ pkg).length + 1) = w.length by
          simp [List.length_append]
          omega]
      rw [List.take_left, splitChar_no_sep hwns]
      exact convert_url_path_wrong_version hw hne

/-- Witness for C9: the bare package-root URL with a required version, and a
wrong version segment. -/
theorem c9_version_checks_witness :
    (∀ ch ∈ ("foo".toList), ch ≠ '#') ∧
    convert_url ("https://docs.rs/".toList ++ "foo".toList) ("foo".toList)
        (some ("0.1.0".toList)) none =
      some (.error (.MissingVersionInUrl ("https://docs.rs/".toList ++ "foo".toList))) ∧
    convert_url ("https://docs.rs/".toList ++ "foo".toList ++ '/' ::
          (("0.2.0".toList) ++ [])) ("foo".toList) (some ("0.1.0".toList)) none =
      some (.error (.WrongVersionInUrl ("https://docs.rs/".toList ++ "foo".toList ++ '/' ::
          (("0.2.0".toList) ++ [])))) := by
  refine ⟨by decide, ?_, ?_⟩
  · exact (c9_version_checks ("foo".toList) ("0.1.0".toList) none (by decide)).1
  · exact (c9_version_checks ("foo".toList) ("0.1.0".toList) none (by decide)).2.2.2.2.1
      ("0.2.0".toList) [] (by decide) (by decide) (by decide) (Or.inl rfl)

/-! C7: fragment dispatch for `kind.Name.html` filenames. -/

theorem convert_url_parse (pkg : List Char) (segs : List (List Char)) (frag : List Char)
    (version crate_name : Option (List Char))
    (hpkg : ∀ ch ∈ pkg, ch ≠ '#')
    (hsegs : ∀ s ∈ segs, ∀ ch ∈ s, ch ≠ '/' ∧ ch ≠ '#')
    (hne : segs ≠ []) :
    convert_url (doc_url pkg segs (some frag)) pkg version crate_name =
      convert_url_path (doc_url pkg segs (some frag)) version crate_name segs
        (some frag) := by
  have hJs : ∀ s ∈ segs, ∀ c ∈ s, c ≠ '/' := fun s hs c hc => (hsegs s hs c hc).1
  have hA : ∀ c ∈ (("https://docs.rs/".toList ++ pkg) ++ ['/']) ++ joinSep ['/'] segs,
      decide (c = '#') = false := by
    intro c hc
    rcases List.mem_append.mp hc with hc | hc
    · rcases List.mem_append.mp hc with hc | hc
      · exact pfx_no_hash hpkg c hc
      · simp only [List.mem_singleton] at hc
        subst hc
        decide
    · rcases joinSep_mem hc with hc | ⟨x, hx, hcx⟩
      · simp only [List.mem_singleton] at hc
        subst hc
        decide
      · exact decide_eq_false (hsegs x hx c hcx).2
  simp only [doc_url, convert_url]
  rw [if_neg (by rw [starts_with_append_self]; decide),
    if_neg (by simp :
      ¬ ("https://docs.rs/".toList ++ pkg ++ '/' ::
          (joinSep ['/'] segs ++ '#' :: frag)).length =
        ("https://docs.rs/".toList ++ pkg).length),
    get_append_len]
  simp only [List.get?]
  rw [if_pos trivial]
  simp only [convert_url_frag]
  rw [show "https://docs.rs/".toList ++ pkg ++ '/' :: (joinSep ['/'] segs ++ '#' :: frag) =
    ((("https://docs.rs/".toList ++ pkg) ++ ['/']) ++ joinSep ['/'] segs) ++ '#' :: frag
    by simp]
  rw [find_index_append ('#' :: frag) hA]
  simp only [find_index]
  rw [if_pos (by decide)]
  simp only [Option.map_some', Nat.zero_add]
  rw [if_neg (by simp [List.length_append])]
  rw [show ((("https://docs.rs/".toList ++ pkg) ++ ['/']) ++ joinSep ['/'] segs) ++
      '#' :: frag =
    (("https://docs.rs/".toList ++ pkg) ++ ['/']) ++ (joinSep ['/'] segs ++ '#' :: frag)
    by simp]
  rw [drop_after_slash]
  rw [show ((("https://docs.rs/".toList ++ pkg) ++ ['/']) ++ joinSep ['/'] segs).length -
      (("https://docs.rs/".toList ++ pkg).length + 1) = (joinSep ['/'] segs).length by
    simp [List.length_append]
    omega]
  rw [List.take_left]
  have hfrag : ((("https://docs.rs/".toList ++ pkg) ++ ['/']) ++
      (joinSep ['/'] segs ++ '#' :: frag)).drop
      (((("https://docs.rs/".toList ++ pkg) ++ ['/']) ++ joinSep ['/'] segs).length + 1) =
      frag := by
    rw [show (("https://docs.rs/".toList ++ pkg) ++ ['/']) ++
        (joinSep ['/'] segs ++ '#' :: frag) =
      (((("https://docs.rs/".toList ++ pkg) ++ ['/']) ++ joinSep ['/'] segs) ++ ['#']) ++
        frag by simp]
    rw [show ((("https://docs.rs/".toList ++ pkg) ++ ['/']) ++ joinSep ['/'] segs).length
        + 1 =
      (((("https://docs.rs/".toList ++ pkg) ++ ['/']) ++ joinSep ['/'] segs) ++
        ['#']).length by
        simp
        omega]
    exact List.drop_left _ _
  rw [hfrag, splitChar_joinSep hne hJs]

theorem convert_url_path_kindfile (url vseg cseg : List Char) (mods : List (List Char))
    (fname : List Char) (frag : Option (List Char))
    (hdot : contains_char fname '.' = true)
    (hnidx : fname ≠ "index.html".toList) :
    convert_url_path url none none (vseg :: cseg :: (mods ++ [fname])) frag =
      convert_url_file url
        (if mods = [] then [] else "::".toList ++ joinSep "::".toList mods) fname frag := by
  have hfne : fname ≠ [] := by
    intro h
    rw [h] at hdot
    simp [contains_char] at hdot
  have hlast : (vseg :: cseg :: (mods ++ [fname])).getLast? = some fname := by
    rw [show vseg :: cseg :: (mods ++ [fname]) = (vseg :: cseg :: mods) ++ [fname] by simp]
    exact List.getLast?_concat _
  have hpop : (if (vseg :: cseg :: (mods ++ [fname])).getLast? = some ([] : List Char)
      then (vseg :: cseg :: (mods ++ [fname])).dropLast
      else vseg :: cseg :: (mods ++ [fname])) = vseg :: cseg :: (mods ++ [fname]) := by
    rw [hlast, if_neg (by simp [hfne])]
  simp only [convert_url_path]
  rw [hpop]
  rw [if_neg (by simp)]
  rw [if_neg (by simp [opt_mismatch])]
  rw [if_neg ?hc2]
  case hc2 =>
    rintro ⟨h2, -⟩
    simp only [List.length_cons, List.length_append, List.length_singleton] at h2
    omega
  rw [if_neg (by simp)]
  rw [if_neg (by simp [opt_mismatch])]
  rw [if_neg ?hc3]
  case hc3 =>
    rintro ⟨h3, hidx⟩
    cases mods with
    | nil =>
      simp only [List.nil_append] at hidx
      exact hnidx (by simpa using hidx)
    | cons m ms =>
      simp only [List.length_cons, List.length_append, List.length_singleton] at h3
      omega
  rw [if_neg ?hc4]
  case hc4 =>
    intro h4
    simp only [List.length_cons, List.length_append, List.length_singleton] at h4
    omega
  rw [hlast]
  simp only [Option.getD_some]
  rw [if_pos hdot]
  simp only [List.drop_succ_cons, List.drop_zero, List.dropLast_concat]

theorem starts_with_ne_first (c : Char) (cs : List Char) (d : Char) (ps : List Char)
    (h : c ≠ d) : starts_with (c :: cs) (d :: ps) = false := by
  simp [starts_with, h]

theorem contains_char_append_left {a : List Char} (b : List Char) {c : Char}
    (h : contains_char a c = true) : contains_char (a ++ b) c = true := by
  induction a with
  | nil => simp [contains_char] at h
  | cons x xs ih =>
    simp only [contains_char] at h
    simp only [List.cons_append, contains_char]
    by_cases hx : x = c
    · rw [if_pos hx]
    · rw [if_neg hx] at h ⊢
      exact ih h

theorem convert_url_kinds_hit (url m name : List Char) (frag : Option (List Char))
    (kind : List Char) (specials : List (List Char))
    (rest : List (List Char × List (List Char))) :
    convert_url_kinds url m (kind ++ name ++ ".html".toList) frag
        ((kind, specials) :: rest) =
      match frag with
      | some fr =>
        match strip_first specials fr with
        | some fragment_name =>
          some (.ok ("crate".toList ++ m ++ "::".toList ++ name ++ "::".toList ++
            fragment_name))
        | none =>
          some (.ok ("crate".toList ++ m ++ "::".toList ++ name ++ "#".toList ++ fr))
      | none => some (.ok ("crate".toList ++ m ++ "::".toList ++ name)) := by
  simp only [convert_url_kinds]
  rw [show kind ++ name ++ ".html".toList = kind ++ (name ++ ".html".toList) by simp]
  rw [if_pos (starts_with_append_self kind (name ++ ".html".toList))]
  rw [if_neg ?hg]
  case hg =>
    simp only [List.length_append]
    have h5 : (".html".toList).length = 5 := rfl
    omega
  rw [List.drop_left]
  rw [show (kind ++ (name ++ ".html".toList)).length - 5 - kind.length = name.length by
    simp only [List.length_append]
    have h5 : (".html".toList).length = 5 := rfl
    omega]
  rw [List.take_left]

theorem convert_url_kinds_skip (url m fname : List Char) (frag : Option (List Char))
    (kind : List Char) (specials : List (List Char))
    (rest : List (List Char × List (List Char)))
    (h : starts_with fname kind = false) :
    convert_url_kinds url m fname frag ((kind, specials) :: rest) =
      convert_url_kinds url m fname frag rest := by
  simp only [convert_url_kinds]
  rw [if_neg (by rw [h]; decide)]

theorem convert_url_to_file (pkg vseg cseg name frag kind : List Char)
    (mods : List (List Char))
    (hpkg : ∀ ch ∈ pkg, ch ≠ '#')
    (hsegs : ∀ s ∈ vseg :: cseg :: mods, ∀ ch ∈ s, ch ≠ '/' ∧ ch ≠ '#')
    (hname : ∀ ch ∈ name, ch ≠ '/' ∧ ch ≠ '#')
    (hkind : ∀ ch ∈ kind, ch ≠ '/' ∧ ch ≠ '#')
    (hkdot : contains_char kind '.' = true)
    (hknidx : kind ++ name ++ ".html".toList ≠ "index.html".toList) :
    convert_url (doc_url pkg (vseg :: cseg :: (mods ++ [kind ++ name ++ ".html".toList]))
        (some frag)) pkg none none =
      convert_url_kinds
        (doc_url pkg (vseg :: cseg :: (mods ++ [kind ++ name ++ ".html".toList]))
          (some frag))
        (if mods = [] then [] else "::".toList ++ joinSep "::".toList mods)
        (kind ++ name ++ ".html".toList) (some frag) kinds_data := by
  have hhtml : ∀ ch ∈ ".html".toList, ch ≠ '/' ∧ ch ≠ '#' := by decide
  have hfname_chars : ∀ ch ∈ kind ++ name ++ ".html".toList, ch ≠ '/' ∧ ch ≠ '#' := by
    intro ch hch
    rcases List.mem_append.mp hch with hch | hch
    · rcases List.mem_append.mp hch with hch | hch
      · exact hkind ch hch
      · exact hname ch hch
    · exact hhtml ch hch
  have hsegs2 : ∀ s ∈ vseg :: cseg :: (mods ++ [kind ++ name ++ ".html".toList]),
      ∀ ch ∈ s, ch ≠ '/' ∧ ch ≠ '#' := by
    intro s hs
    rcases List.mem_cons.mp hs with rfl | hs
    · exact hsegs _ (by simp)
    rcases List.mem_cons.mp hs with rfl | hs
    · exact hsegs _ (by simp)
    rcases List.mem_append.mp hs with hs | hs
    · exact hsegs _ (by simp [hs])
    · simp only [List.mem_singleton] at hs
      subst hs
      exact hfname_chars
  rw [convert_url_parse pkg _ frag none none hpkg hsegs2 (by simp)]
  rw [convert_url_path_kindfile _ vseg cseg mods _ (some frag)
    (contains_char_append_left _ (contains_char_append_left _ hkdot)) hknidx]
  simp only [convert_url_file]
  rw [if_neg hknidx]
  rw [if_neg (by
    rw [ends_with_append_self (kind ++ name) (".html".toList)]
    decide)]

/-- C7: for a matched documentation URL with filename `kind.Name.html` and a
fragment, a fragment starting with one of the kind's special prefixes (`enum` →
`method.`, `variant.`; `fn` → none; `struct` → `method.`; `trait` →
`tymethod.`) is promoted into the path with the prefix stripped
(`crate::<modules>::<Name>::<rest>`); any other fragment is passed through
verbatim (`crate::<modules>::<Name>#<fragment>`); and the concrete example
line maps to `[x]: crate::a::b::Foo::bar`. -/
theorem c7_kind_fragment_dispatch (pkg vseg cseg name frag modstr : List Char)
    (mods : List (List Char))
    (hpkg : ∀ ch ∈ pkg, ch ≠ '#')
    (hsegs : ∀ s ∈ vseg :: cseg :: mods, ∀ ch ∈ s, ch ≠ '/' ∧ ch ≠ '#')
    (hname : ∀ ch ∈ name, ch ≠ '/' ∧ ch ≠ '#')
    (hm : modstr = if mods = [] then [] else "::".toList ++ joinSep "::".toList mods) :
    (∀ r, frag = "method.".toList ++ r →
      convert_url (doc_url pkg (vseg :: cseg ::
          (mods ++ ["enum.".toList ++ name ++ ".html".toList])) (some frag)) pkg none none =
        some (.ok ("crate".toList ++ modstr ++ "::".toList ++ name ++ "::".toList ++ r))) ∧
    (∀ r, frag = "variant.".toList ++ r →
      convert_url (doc_url pkg (vseg :: cseg ::
          (mods ++ ["enum.".toList ++ name ++ ".html".toList])) (some frag)) pkg none none =
        some (.ok ("crate".toList ++ modstr ++ "::".toList ++ name ++ "::".toList ++ r))) ∧
    (starts_with frag ("method.".toList) = false →
      starts_with frag ("variant.".toList) = false →
      convert_url (doc_url pkg (vseg :: cseg ::
          (mods ++ ["enum.".toList ++ name ++ ".html".toList])) (some frag)) pkg none none =
        some (.ok ("crate".toList ++ modstr ++ "::".toList ++ name ++ "#".toList ++
          frag))) ∧
    (convert_url (doc_url pkg (vseg :: cseg ::
        (mods ++ ["fn.".toList ++ name ++ ".html".toList])) (some frag)) pkg none none =
      some (.ok ("crate".toList ++ modstr ++ "::".toList ++ name ++ "#".toList ++ frag))) ∧
    (∀ r, frag = "method.".toList ++ r →
      convert_url (doc_url pkg (vseg :: cseg ::
          (mods ++ ["struct.".toList ++ name ++ ".html".toList])) (some frag)) pkg none
          none =
        some (.ok ("crate".toList ++ modstr ++ "::".toList ++ name ++ "::".toList ++ r))) ∧
    (starts_with frag ("method.".toList) = false →
      convert_url (doc_url pkg (vseg :: cseg ::
          (mods ++ ["struct.".toList ++ name ++ ".html".toList])) (some frag)) pkg none
          none =
        some (.ok ("crate".toList ++ modstr ++ "::".toList ++ name ++ "#".toList ++
          frag))) ∧
    (∀ r, frag = "tymethod.".toList ++ r →
      convert_url (doc_url pkg (vseg :: cseg ::
          (mods ++ ["trait.".toList ++ name ++ ".html".toList])) (some frag)) pkg none
          none =
        some (.ok ("crate".toList ++ modstr ++ "::".toList ++ name ++ "::".toList ++ r))) ∧
    (starts_with frag ("tymethod.".toList) = false →
      convert_url (doc_url pkg (vseg :: cseg ::
          (mods ++ ["trait.".toList ++ name ++ ".html".toList])) (some frag)) pkg none
          none =
        some (.ok ("crate".toList ++ modstr ++ "::".toList ++ name ++ "#".toList ++
          frag))) ∧
    (rustdocify ("[x]: https://docs.rs/foo/*/foo/a/b/enum.Foo.html#method.bar".toList)
        ("foo".toList) none (some ("foo".toList)) =
      some (.ok ("[x]: crate::a::b::Foo::bar".toList))) := by
  subst hm
  have henum := convert_url_to_file pkg vseg cseg name frag ("enum.".toList) mods hpkg
    hsegs hname (by decide) (by decide)
    (fun h => by
      have h2 := congrArg List.head? h
      rw [show ("enum.".toList ++ name ++ ".html".toList).head? = some 'e' from rfl,
        show ("index.html".toList).head? = some 'i' from rfl] at h2
      exact absurd h2 (by decide))
  have hfn := convert_url_to_file pkg vseg cseg name frag ("fn.".toList) mods hpkg
    hsegs hname (by decide) (by decide)
    (fun h => by
      have h2 := congrArg List.head? h
      rw [show ("fn.".toList ++ name ++ ".html".toList).head? = some 'f' from rfl,
        show ("index.html".toList).head? = some 'i' from rfl] at h2
      exact absurd h2 (by decide))
  have hstruct := convert_url_to_file pkg vseg cseg name frag ("struct.".toList) mods hpkg
    hsegs hname (by decide) (by decide)
    (fun h => by
      have h2 := congrArg List.head? h
      rw [show ("struct.".toList ++ name ++ ".html".toList).head? = some 's' from rfl,
        show ("index.html".toList).head? = some 'i' from rfl] at h2
      exact absurd h2 (by decide))
  have htrait := convert_url_to_file pkg vseg cseg name frag ("trait.".toList) mods hpkg
    hsegs hname (by decide) (by decide)
    (fun h => by
      have h2 := congrArg List.head? h
      rw [show ("trait.".toList ++ name ++ ".html".toList).head? = some 't' from rfl,
        show ("index.html".toList).head? = some 'i' from rfl] at h2
      exact absurd h2 (by decide))
  refine ⟨?_, ?_, ?_, ?_, ?_, ?_, ?_, ?_, by decide⟩
  · intro r hr
    subst hr
    rw [henum]
    simp only [kinds_data]
    rw [convert_url_kinds_hit]
    simp only [strip_first]
    rw [if_pos (starts_with_append_self _ _), List.drop_left]
  · intro r hr
    subst hr
    rw [henum]
    simp only [kinds_data]
    rw [convert_url_kinds_hit]
    simp only [strip_first]
    rw [if_neg (by
        rw [show starts_with ("variant.".toList ++ r) ("method.".toList) = false from
          starts_with_ne_first 'v' _ 'm' _ (by decide)]
        decide)]
    rw [if_pos (starts_with_append_self _ _), List.drop_left]
  · intro hmet hvar
    rw [henum]
    simp only [kinds_data]
    rw [convert_url_kinds_hit]
    simp only [strip_first]
    rw [if_neg (by rw [hmet]; decide), if_neg (by rw [hvar]; decide)]
  · rw [hfn]
    simp only [kinds_data]
    rw [convert_url_kinds_skip _ _ _ _ _ _ _
      (show starts_with ("fn.".toList ++ name ++ ".html".toList) ("enum.".toList) = false
        from starts_with_ne_first 'f' _ 'e' _ (by decide))]
    rw [convert_url_kinds_hit]
    simp only [strip_first]
  · intro r hr
    subst hr
    rw [hstruct]
    simp only [kinds_data]
    rw [convert_url_kinds_skip _ _ _ _ _ _ _
      (show starts_with ("struct.".toList ++ name ++ ".html".toList) ("enum.".toList) =
          false
        from starts_with_ne_first 's' _ 'e' _ (by decide))]
    rw [convert_url_kinds_skip _ _ _ _ _ _ _
      (show starts_with ("struct.".toList ++ name ++ ".html".toList) ("fn.".toList) = false
        from starts_with_ne_first 's' _ 'f' _ (by decide))]
    rw [convert_url_kinds_hit]
    simp only [strip_first]
    rw [if_pos (starts_with_append_self _ _), List.drop_left]
  · intro hmet
    rw [hstruct]
    simp only [kinds_data]
    rw [convert_url_kinds_skip _ _ _ _ _ _ _
      (show starts_with ("struct.".toList ++ name ++ ".html".toList) ("enum.".toList) =
          false
        from starts_with_ne_first 's' _ 'e' _ (by decide))]
    rw [convert_url_kinds_skip _ _ _ _ _ _ _
      (show starts_with ("struct.".toList ++ name ++ ".html".toList) ("fn.".toList) = false
        from starts_with_ne_first 's' _ 'f' _ (by decide))]
    rw [convert_url_kinds_hit]
    simp only [strip_first]
    rw [if_neg (by rw [hmet]; decide)]
  · intro r hr
    subst hr
    rw [htrait]
    simp only [kinds_data]
    rw [convert_url_kinds_skip _ _ _ _ _ _ _
      (show starts_with ("trait.".toList ++ name ++ ".html".toList) ("enum.".toList) =
          false
        from starts_with_ne_first 't' _ 'e' _ (by decide))]
    rw [convert_url_kinds_skip _ _ _ _ _ _ _
      (show starts_with ("trait.".toList ++ name ++ ".html".toList) ("fn.".toList) = false
        from starts_with_ne_first 't' _ 'f' _ (by decide))]
    rw [convert_url_kinds_skip _ _ _ _ _ _ _
      (show starts_with ("trait.".toList ++ name ++ ".html".toList) ("struct.".toList) =
          false
        from starts_with_ne_first 't' _ 's' _ (by decide))]
    rw [convert_url_kinds_hit]
    simp only [strip_first]
    rw [if_pos (starts_with_append_self _ _), List.drop_left]
  · intro hty
    rw [htrait]
    simp only [kinds_data]
    rw [convert_url_kinds_skip _ _ _ _ _ _ _
      (show starts_with ("trait.".toList ++ name ++ ".html".toList) ("enum.".toList) =
          false
        from starts_with_ne_first 't' _ 'e' _ (by decide))]
    rw [convert_url_kinds_skip _ _ _ _ _ _ _
      (show starts_with ("trait.".toList ++ name ++ ".html".toList) ("fn.".toList) = false
        from starts_with_ne_first 't' _ 'f' _ (by decide))]
    rw [convert_url_kinds_skip _ _ _ _ _ _ _
      (show starts_with ("trait.".toList ++ name ++ ".html".toList) ("struct.".toList) =
          false
        from starts_with_ne_first 't' _ 's' _ (by decide))]
    rw [convert_url_kinds_hit]
    simp only [strip_first]
    rw [if_neg (by rw [hty]; decide)]

/-- Witness for C7: the claim's own example URL, assembled from its parts,
converts to `crate::a::b::Foo::bar`. -/
theorem c7_kind_fragment_dispatch_witness :
    ((∀ ch ∈ ("foo".toList), ch ≠ '#') ∧
      (∀ s ∈ ("*".toList) :: ("foo".toList) :: [("a".toList), ("b".toList)],
        ∀ ch ∈ s, ch ≠ '/' ∧ ch ≠ '#') ∧
      (∀ ch ∈ ("Foo".toList), ch ≠ '/' ∧ ch ≠ '#')) ∧
    convert_url (doc_url ("foo".toList)
        (("*".toList) :: ("foo".toList) :: ([("a".toList), ("b".toList)] ++
          ["enum.".toList ++ "Foo".toList ++ ".html".toList]))
        (some ("method.".toList ++ "bar".toList))) ("foo".toList) none none =
      some (.ok ("crate".toList ++ ("::a::b".toList) ++ "::".toList ++ "Foo".toList ++
        "::".toList ++ "bar".toList)) := by
  refine ⟨⟨by decide, by decide, by decide⟩, ?_⟩
  exact (c7_kind_fragment_dispatch ("foo".toList) ("*".toList) ("foo".toList)
    ("Foo".toList) ("method.".toList ++ "bar".toList) ("::a::b".toList)
    [("a".toList), ("b".toList)] (by decide) (by decide) (by decide) (by decide)).1
    ("bar".toList) rfl

/-! C1: whitespace-freedom of converted links, needed for terminator
preservation. -/

theorem nows_append {a b : List Char} (ha : nows a) (hb : nows b) : nows (a ++ b) := by
  intro ch hch
  rcases List.mem_append.mp hch with h | h
  · exact ha ch h
  · exact hb ch h

theorem nows_subset {a b : List Char} (h : nows b) (hs : a ⊆ b) : nows a :=
  fun ch hch => h ch (hs hch)

theorem nows_ne_nil_append {a b : List Char} (ha : a ≠ []) : a ++ b ≠ [] := by
  intro h
  exact ha (List.append_eq_nil.mp h).1

theorem getLast?_of_ne_nil {α : Type} {l : List α} (h : l ≠ []) :
    ∃ d, l.getLast? = some d := by
  rw [← List.head?_reverse]
  cases hr : l.reverse with
  | nil => exact absurd (List.reverse_eq_nil_iff.mp hr) h
  | cons d r => exact ⟨d, rfl⟩

theorem root_link_nows {frag : Option (List Char)}
    (hf : ∀ f, frag = some f → nows f) :
    root_link frag ≠ [] ∧ nows (root_link frag) := by
  cases frag with
  | none => exact ⟨by decide, by decide⟩
  | some f =>
    refine ⟨by simp [root_link], ?_⟩
    exact nows_append (by decide) (hf f rfl)

theorem strip_first_sub {specials : List (List Char)} {fr r : List Char}
    (h : strip_first specials fr = some r) : r ⊆ fr := by
  induction specials with
  | nil => cases h
  | cons s rest ih =>
    simp only [strip_first] at h
    split at h
    · cases h
      exact List.drop_subset _ _
    · exact ih h

theorem convert_url_kinds_nows {url m filename : List Char} {frag : Option (List Char)}
    {link : List Char}
    (hm : nows m) (hfn : nows filename) (hf : ∀ f, frag = some f → nows f) :
    ∀ data, convert_url_kinds url m filename frag data = some (.ok link) →
      link ≠ [] ∧ nows link := by
  intro data
  induction data with
  | nil => intro h; simp [convert_url_kinds] at h
  | cons kd rest ih =>
    obtain ⟨kind, specials⟩ := kd
    intro h
    simp only [convert_url_kinds] at h
    split at h
    · split at h
      · cases h
      · have hname : nows ((filename.drop kind.length).take
            (filename.length - 5 - kind.length)) :=
          nows_subset hfn fun x hx => List.drop_subset _ _ (List.take_subset _ _ hx)
        cases frag with
        | none =>
          simp only [Option.some.injEq, Except.ok.injEq] at h
          subst h
          refine ⟨by simp, ?_⟩
          exact nows_append (nows_append (nows_append (by decide) hm) (by decide)) hname
        | some fr =>
          have hfr : nows fr := hf fr rfl
          simp only [] at h
          cases hsf : strip_first specials fr with
          | some fname2 =>
            rw [hsf] at h
            simp only [Option.some.injEq, Except.ok.injEq] at h
            subst h
            refine ⟨by simp, ?_⟩
            exact nows_append (nows_append (nows_append (nows_append (nows_append
              (by decide) hm) (by decide)) hname) (by decide))
              (nows_subset hfr (strip_first_sub hsf))
          | none =>
            rw [hsf] at h
            simp only [Option.some.injEq, Except.ok.injEq] at h
            subst h
            refine ⟨by simp, ?_⟩
            exact nows_append (nows_append (nows_append (nows_append (nows_append
              (by decide) hm) (by decide)) hname) (by decide)) hfr
    · exact ih h

theorem convert_url_file_nows {url m filename : List Char} {frag : Option (List Char)}
    {link : List Char}
    (hm : nows m) (hfn : nows filename) (hf : ∀ f, frag = some f → nows f)
    (h : convert_url_file url m filename frag = some (.ok link)) :
    link ≠ [] ∧ nows link := by
  simp only [convert_url_file] at h
  split at h
  · cases frag with
    | some f =>
      simp only [Option.some.injEq, Except.ok.injEq] at h
      subst h
      refine ⟨by simp, ?_⟩
      exact nows_append (nows_append (nows_append (by decide) hm) (by decide)) (hf f rfl)
    | none =>
      simp only [Option.some.injEq, Except.ok.injEq] at h
      subst h
      exact ⟨by simp, nows_append (by decide) hm⟩
  · split at h
    · simp at h
    · exact convert_url_kinds_nows hm hfn hf kinds_data h

theorem convert_url_path_nows {url : List Char} {version crate_name : Option (List Char)}
    {path0 : List (List Char)} {frag : Option (List Char)} {link : List Char}
    (hp : ∀ s ∈ path0, nows s) (hf : ∀ f, frag = some f → nows f)
    (h : convert_url_path url version crate_name path0 frag = some (.ok link)) :
    link ≠ [] ∧ nows link := by
  have hp2 : ∀ s ∈ (if path0.getLast? = some ([] : List Char) then path0.dropLast
      else path0), nows s := by
    intro s hs
    split at hs
    · exact hp s (List.dropLast_subset _ hs)
    · exact hp s hs
  simp only [convert_url_path] at h
  generalize hgen : (if path0.getLast? = some ([] : List Char) then path0.dropLast
    else path0) = path at h
  rw [hgen] at hp2
  split at h
  · split at h
    · simp at h
    · simp only [Option.some.injEq, Except.ok.injEq] at h
      subst h
      exact root_link_nows hf
  · split at h
    · simp at h
    · split at h
      · simp only [Option.some.injEq, Except.ok.injEq] at h
        subst h
        exact root_link_nows hf
      · split at h
        · simp only [Option.some.injEq, Except.ok.injEq] at h
          subst h
          exact root_link_nows hf
        · split at h
          · simp at h
          · split at h
            · simp only [Option.some.injEq, Except.ok.injEq] at h
              subst h
              exact root_link_nows hf
            · split at h
              · simp only [Option.some.injEq, Except.ok.injEq] at h
                subst h
                exact root_link_nows hf
              · have hlast : nows (path.getLast?.getD []) := by
                  cases hl : path.getLast? with
                  | none => intro ch hch; simp at hch
                  | some d =>
                    simp only [Option.getD_some]
                    exact hp2 d (getLast?_mem hl)
                have hmods : ∀ (md : List (List Char)), (∀ s ∈ md, s ∈ path) →
                    nows (if md = [] then ([] : List Char)
                      else "::".toList ++ joinSep "::".toList md) := by
                  intro md hmd
                  split
                  · intro ch hch; simp at hch
                  · refine nows_append (by decide) ?_
                    intro ch hch
                    rcases joinSep_mem hch with hch | ⟨x, hx, hcx⟩
                    · have hcc : ∀ c ∈ "::".toList, rust_is_whitespace c = false := by
                        decide
                      exact hcc ch hch
                    · exact hp2 x (hmd x hx) ch hcx
                split at h
                · exact convert_url_file_nows
                    (hmods _ fun s hs => List.drop_subset _ _ (List.dropLast_subset _ hs))
                    hlast hf h
                · exact convert_url_file_nows
                    (hmods _ fun s hs => List.drop_subset _ _ hs)
                    (show nows ("index.html".toList) by decide) hf h

theorem convert_url_frag_nows {url : List Char} {version crate_name : Option (List Char)}
    {plen : Nat} {link : List Char} (hurl : nows url)
    (h : convert_url_frag url version crate_name plen = some (.ok link)) :
    link ≠ [] ∧ nows link := by
  simp only [convert_url_frag] at h
  split at h
  · rename_i f hfi
    split at h
    · cases h
    · refine convert_url_path_nows ?_ ?_ h
      · intro s hs ch hch
        exact hurl ch (List.drop_subset _ _ (List.take_subset _ _ (splitChar_mem hs hch)))
      · rintro fr ⟨⟩
        exact nows_subset hurl (List.drop_subset _ _)
  · refine convert_url_path_nows ?_ ?_ h
    · intro s hs ch hch
      exact hurl ch (List.drop_subset _ _ (splitChar_mem hs hch))
    · rintro fr ⟨⟩

theorem convert_url_nows {url pkg : List Char} {version crate_name : Option (List Char)}
    {link : List Char} (hurl : nows url) (hne : url ≠ [])
    (h : convert_url url pkg version crate_name = some (.ok link)) :
    link ≠ [] ∧ nows link := by
  simp only [convert_url] at h
  split at h
  · simp only [Option.some.injEq, Except.ok.injEq] at h
    subst h
    exact ⟨hne, hurl⟩
  · split at h
    · exact convert_url_frag_nows hurl h
    · split at h
      · cases h
      · split at h
        · exact convert_url_frag_nows hurl h
        · split at h
          · exact convert_url_frag_nows hurl h
          · simp only [Option.some.injEq, Except.ok.injEq] at h
            subst h
            exact ⟨hne, hurl⟩

theorem terminator_link_chunk (line link : List Char) (us ue : Nat)
    (husue : us < ue) (hue : ue ≤ line.length)
    (hlink_ne : link ≠ []) (hlink : nows link)
    (hurl : nows ((line.drop us).take (ue - us))) :
    terminator (line.take us ++ link ++ line.drop ue) = terminator line := by
  have hult : us < line.length := lt_of_lt_of_le husue hue
  have hdne : line.drop us ≠ [] := by
    intro hd
    have h2 := congrArg List.length hd
    simp only [List.length_drop, List.length_nil] at h2
    omega
  have hurl_ne : (line.drop us).take (ue - us) ≠ [] :=
    take_ne_nil_of hdne (by omega)
  obtain ⟨du, hdu⟩ := getLast?_of_ne_nil hurl_ne
  have hdu_ws : rust_is_whitespace du = false := hurl du (getLast?_mem hdu)
  obtain ⟨dl, hdl⟩ := getLast?_of_ne_nil hlink_ne
  have hdl_ws : rust_is_whitespace dl = false := hlink dl (getLast?_mem hdl)
  have hdl_nr : dl ≠ '\r' := by
    intro e; rw [e] at hdl_ws; exact absurd hdl_ws (by decide)
  have hdl_nn : dl ≠ '\n' := by
    intro e; rw [e] at hdl_ws; exact absurd hdl_ws (by decide)
  have hdu_nr : du ≠ '\r' := by
    intro e; rw [e] at hdu_ws; exact absurd hdu_ws (by decide)
  have hdu_nn : du ≠ '\n' := by
    intro e; rw [e] at hdu_ws; exact absurd hdu_ws (by decide)
  have hchunk_last : (line.take us ++ link).getLast? = some dl := by
    rw [List.getLast?_append, hdl]
    rfl
  by_cases hB : ue = line.length
  · subst hB
    rw [List.drop_length, List.append_nil]
    have hurl_eq : (line.drop us).take (line.length - us) = line.drop us := by
      rw [show line.length - us = (line.drop us).length by rw [List.length_drop],
        List.take_length]
    rw [hurl_eq] at hdu
    have hline_last : line.getLast? = some du := by
      conv_lhs => rw [← List.take_append_drop us line]
      rw [List.getLast?_append, hdu]
      rfl
    rw [terminator_last_ne hline_last hdu_nn, terminator_last_ne hchunk_last hdl_nn]
  · have htne : line.drop ue ≠ [] := by
      intro hd
      have h2 := congrArg List.length hd
      simp only [List.length_drop, List.length_nil] at h2
      omega
    by_cases h2 : 2 ≤ (line.drop ue).length
    · rw [terminator_append h2]
      conv_rhs => rw [← List.take_append_drop ue line]
      rw [terminator_append h2]
    · have h1 : (line.drop ue).length = 1 := by
        have h0 : 0 < (line.drop ue).length := List.length_pos.mpr htne
        omega
      obtain ⟨w, hw⟩ : ∃ w, line.drop ue = [w] := by
        cases hd : line.drop ue with
        | nil => exact absurd hd htne
        | cons a t =>
          cases t with
          | nil => exact ⟨a, rfl⟩
          | cons b t2 => rw [hd] at h1; simp at h1
      rw [hw]
      rw [terminator_snoc w (fun d hd2 => by
        rw [hchunk_last] at hd2
        cases hd2
        exact hdl_nr)]
      conv_rhs => rw [← List.take_append_drop ue line, hw]
      rw [terminator_snoc w ?hlast]
      case hlast =>
        intro d hd2
        have htue : line.take ue = line.take us ++ (line.drop us).take (ue - us) := by
          conv_lhs => rw [show ue = us + (ue - us) by omega]
          rw [List.take_add]
        rw [htue, List.getLast?_append, hdu] at hd2
        have hdd : du = d := by
          have h3 : (some du).or (line.take us).getLast? = some du := rfl
          rw [h3] at hd2
          injection hd2
        rw [← hdd]
        exact hdu_nr

theorem convert_link_line_some {line pkg : List Char}
    {version crate_name : Option (List Char)} {newline : List Char}
    (h : convert_link_line line pkg version crate_name = some (.ok (some newline))) :
    ∃ us ue link, 1 ≤ us ∧ us < ue ∧ ue ≤ line.length ∧
      newline = line.take us ++ link ++ line.drop ue ∧
      link ≠ [] ∧ nows link ∧ nows ((line.drop us).take (ue - us)) := by
  simp only [convert_link_line] at h
  split at h
  · cases h
  rename_i c0 hc0
  split at h
  case isFalse => simp at h
  split at h
  case h_1 => simp at h
  rename_i cb hcb
  split at h
  · cases h
  rename_i c1 hc1
  split at h
  case isFalse => simp at h
  split at h
  case h_1 => simp at h
  rename_i q hq
  split at h
  case isTrue => simp at h
  rename_i hq0
  obtain ⟨cu, hcu, hcu_ws⟩ := find_index_some_getq hq
  have hcu_ws2 : rust_is_whitespace cu = false := by
    cases hx : rust_is_whitespace cu
    · rfl
    · rw [hx] at hcu_ws; cases hcu_ws
  have hget_us : line.get? (cb + 2 + q) = some cu := by
    rw [← List.get?_drop]
    exact hcu
  have hus_lt : cb + 2 + q < line.length := getq_some_lt hget_us
  have hdrop_ne : line.drop (cb + 2 + q) ≠ [] := by
    intro hd
    have h3 := congrArg List.length hd
    simp only [List.length_drop, List.length_nil] at h3
    omega
  cases hue : find_index rust_is_whitespace (line.drop (cb + 2 + q)) with
  | some r =>
    rw [hue] at h
    simp only [] at h
    rw [show cb + 2 + q + r - (cb + 2 + q) = r by omega] at h
    obtain ⟨wch, hwch, hwch_ws⟩ := find_index_some_getq hue
    have hr1 : 1 ≤ r := by
      rcases Nat.eq_zero_or_pos r with rfl | hr'
      · have h4 : (line.drop (cb + 2 + q)).get? 0 = some cu := by
          rw [List.get?_drop, Nat.add_zero]
          exact hget_us
        rw [h4] at hwch
        injection hwch with h5
        rw [← h5] at hwch_ws
        rw [hwch_ws] at hcu_ws2
        cases hcu_ws2
      · exact hr'
    have hr_lt : r < (line.drop (cb + 2 + q)).length := getq_some_lt hwch
    rw [List.length_drop] at hr_lt
    have hnows_url : nows ((line.drop (cb + 2 + q)).take r) := by
      intro c hc
      exact find_index_take_false hue c hc
    have hurl_ne : (line.drop (cb + 2 + q)).take r ≠ [] := take_ne_nil_of hdrop_ne hr1
    cases hconv : convert_url ((line.drop (cb + 2 + q)).take r) pkg version crate_name with
    | none => rw [hconv] at h; cases h
    | some res =>
      cases res with
      | error e => rw [hconv] at h; simp at h
      | ok link =>
        rw [hconv] at h
        simp only [Option.some.injEq, Except.ok.injEq] at h
        obtain ⟨hlink_ne, hlink_nows⟩ := convert_url_nows hnows_url hurl_ne hconv
        refine ⟨cb + 2 + q, cb + 2 + q + r, link, by omega, by omega, by omega, h.symm,
          hlink_ne, hlink_nows, ?_⟩
        rw [show cb + 2 + q + r - (cb + 2 + q) = r by omega]
        exact hnows_url
  | none =>
    rw [hue] at h
    simp only [] at h
    have hnows_url : nows ((line.drop (cb + 2 + q)).take (line.length - (cb + 2 + q))) := by
      intro c hc
      exact find_index_none_mem hue c (List.take_subset _ _ hc)
    have hurl_ne : (line.drop (cb + 2 + q)).take (line.length - (cb + 2 + q)) ≠ [] :=
      take_ne_nil_of hdrop_ne (by omega)
    cases hconv : convert_url ((line.drop (cb + 2 + q)).take (line.length - (cb + 2 + q)))
        pkg version crate_name with
    | none => rw [hconv] at h; cases h
    | some res =>
      cases res with
      | error e => rw [hconv] at h; simp at h
      | ok link =>
        rw [hconv] at h
        simp only [Option.some.injEq, Except.ok.injEq] at h
        obtain ⟨hlink_ne, hlink_nows⟩ := convert_url_nows hnows_url hurl_ne hconv
        exact ⟨cb + 2 + q, line.length, link, by omega, by omega, by omega, h.symm,
          hlink_ne, hlink_nows, hnows_url⟩

theorem convert_header_line_some_inv {line : List Char} {ifh : Bool} {out : List Char}
    {ifh2 : Bool}
    (h : convert_header_line line ifh = some (.ok (some out), ifh2)) :
    (out = [] ∧ ifh = true ∧ ifh2 = false ∧ line.get? 0 = some '#' ∧
      line.get? 1 = some ' ') ∨
    (out = line.drop 1 ∧ ifh2 = false ∧ 3 ≤ line.length) := by
  simp only [convert_header_line] at h
  split at h
  case isFalse => simp at h
  rename_i hlevel
  split at h
  · cases h
  rename_i c hc
  split at h
  case isFalse => simp at h
  rename_i hsp
  split at h
  · rename_i h1
    split at h
    · rename_i hifh
      simp only [Option.some.injEq, Prod.mk.injEq, Except.ok.injEq] at h
      obtain ⟨hout, hifh2⟩ := h
      left
      obtain ⟨ch, cs, hline, hch⟩ := takeWhile_pos_head hlevel
      have hch2 : ch = '#' := of_decide_eq_true hch
      refine ⟨hout.symm, by simpa using hifh, hifh2.symm, ?_, ?_⟩
      · rw [hline, hch2]
        rfl
      · rw [h1] at hc
        rw [hsp] at hc
        exact hc
    · simp at h
  · rename_i h1
    simp only [Option.some.injEq, Prod.mk.injEq, Except.ok.injEq] at h
    obtain ⟨hout, hifh2⟩ := h
    right
    have hlt : (line.takeWhile (fun c => decide (c = '#'))).length < line.length :=
      getq_some_lt hc
    refine ⟨hout.symm, hifh2.symm, by omega⟩

theorem convert_header_line_none_inv {line : List Char} {ifh ifh2 : Bool}
    (h : convert_header_line line ifh = some (.ok none, ifh2)) : ifh2 = ifh := by
  simp only [convert_header_line] at h
  split at h
  · split at h
    · cases h
    · split at h
      · split at h
        · split at h
          · simp at h
          · simp at h
        · simp at h
      · simp only [Option.some.injEq, Prod.mk.injEq] at h
        exact h.2.symm
  · simp only [Option.some.injEq, Prod.mk.injEq] at h
    exact h.2.symm

theorem step_chunk_spec (pkg : List Char) (version crate_name : Option (List Char))
    (st st2 : ScanState) (line chunk : List Char) (hline : line ≠ [])
    (h : rustdocify_step pkg version crate_name st line = some (.ok (chunk, st2))) :
    ((chunk = [] ∧ st.ifh = true ∧ st2.ifh = false ∧
        line.get? 0 = some '#' ∧ line.get? 1 = some ' ') ∨
      (chunk ≠ [] ∧ terminator chunk = terminator line)) ∧
    (st.ifh = false → st2.ifh = false) := by
  obtain ⟨ifh, cbl⟩ := st
  simp only [rustdocify_step] at h
  split at h
  · simp only [Option.some.injEq, Except.ok.injEq, Prod.mk.injEq] at h
    obtain ⟨hchunk, hst2⟩ := h
    subst hchunk
    rw [← hst2]
    exact ⟨Or.inr ⟨hline, rfl⟩, fun hf => by simpa using hf⟩
  · split at h
    · simp only [Option.some.injEq, Except.ok.injEq, Prod.mk.injEq] at h
      obtain ⟨hchunk, hst2⟩ := h
      subst hchunk
      rw [← hst2]
      exact ⟨Or.inr ⟨hline, rfl⟩, fun hf => by simpa using hf⟩
    · split at h
      · cases h
      · rename_i e hhdr
        cases h
      · rename_i out ifh2 hhdr
        simp only [Option.some.injEq, Except.ok.injEq, Prod.mk.injEq] at h
        obtain ⟨hchunk, hst2⟩ := h
        subst hchunk
        rw [← hst2]
        rcases convert_header_line_some_inv hhdr with
          ⟨hout, hifh, hifh2, h0, h1⟩ | ⟨hout, hifh2, hlen3⟩
        · refine ⟨Or.inl ⟨hout, by simpa using hifh, by simpa using hifh2, h0, h1⟩, ?_⟩
          intro hf
          simpa using hifh2
        · subst hout
          refine ⟨Or.inr ⟨?_, ?_⟩, ?_⟩
          · intro hd
            have h3 := congrArg List.length hd
            simp only [List.length_drop, List.length_nil] at h3
            omega
          · cases line with
            | nil => exact absurd rfl hline
            | cons c cs =>
              simp only [List.drop_succ_cons, List.drop_zero]
              exact (terminator_cons c (by simpa using hlen3)).symm
          · intro hf
            simpa using hifh2
      · rename_i ifh2 hhdr
        have hifh2 : ifh2 = ifh := convert_header_line_none_inv hhdr
        subst hifh2
        split at h
        · cases h
        · cases h
        · rename_i newline hlink
          simp only [Option.some.injEq, Except.ok.injEq, Prod.mk.injEq] at h
          obtain ⟨hchunk, hst2⟩ := h
          subst hchunk
          rw [← hst2]
          obtain ⟨us, ue, link, hus1, husue, hue, hnew, hlink_ne, hlink_nows, hurl_nows⟩ :=
            convert_link_line_some hlink
          subst hnew
          refine ⟨Or.inr ⟨?_, ?_⟩, fun hf => hf⟩
          · exact nows_ne_nil_append (nows_ne_nil_append (take_ne_nil_of hline hus1))
          · exact terminator_link_chunk line link us ue husue hue hlink_ne hlink_nows
              hurl_nows
        · rename_i hlink
          simp only [Option.some.injEq, Except.ok.injEq, Prod.mk.injEq] at h
          obtain ⟨hchunk, hst2⟩ := h
          subst hchunk
          rw [← hst2]
          exact ⟨Or.inr ⟨hline, rfl⟩, fun hf => hf⟩

theorem run_chunks (pkg : List Char) (version crate_name : Option (List Char)) :
    ∀ (ls : List (List Char)) (st : ScanState) (out : List Char) (stF : ScanState),
      (∀ l ∈ ls, l ≠ []) →
      rustdocify_run pkg version crate_name st ls = some (.ok (out, stF)) →
      ∃ chunks : List (List Char),
        out = chunks.flatten ∧
        List.Forall₂ (fun l c => (c = [] ∧ l.get? 0 = some '#' ∧ l.get? 1 = some ' ') ∨
          (c ≠ [] ∧ terminator c = terminator l)) ls chunks ∧
        (st.ifh = false → ∀ c ∈ chunks, c ≠ []) ∧
        (∀ i j, chunks.get? i = some ([] : List Char) → chunks.get? j = some [] → i = j)
  | [], st, out, stF, _, h => by
    simp only [rustdocify_run, Option.some.injEq, Except.ok.injEq, Prod.mk.injEq] at h
    obtain ⟨hout, -⟩ := h
    subst hout
    exact ⟨[], rfl, List.Forall₂.nil, by simp, by simp⟩
  | l :: ls, st, out, stF, hnil, h => by
    simp only [rustdocify_run] at h
    cases hstep : rustdocify_step pkg version crate_name st l with
    | none => rw [hstep] at h; cases h
    | some r =>
      cases r with
      | error e => rw [hstep] at h; simp at h
      | ok p =>
        obtain ⟨c0, st1⟩ := p
        rw [hstep] at h
        simp only [] at h
        cases hrun : rustdocify_run pkg version crate_name st1 ls with
        | none => rw [hrun] at h; cases h
        | some r2 =>
          cases r2 with
          | error e => rw [hrun] at h; simp at h
          | ok p2 =>
            obtain ⟨out2, st3⟩ := p2
            rw [hrun] at h
            simp only [Option.some.injEq, Except.ok.injEq, Prod.mk.injEq] at h
            obtain ⟨hout, hstF⟩ := h
            obtain ⟨hP, hmono⟩ := step_chunk_spec pkg version crate_name st st1 l c0
              (hnil l (by simp)) hstep
            obtain ⟨chunks, hfl, hfa, hnn, huniq⟩ := run_chunks pkg version crate_name
              ls st1 out2 st3 (fun x hx => hnil x (by simp [hx])) hrun
            refine ⟨c0 :: chunks, ?_, ?_, ?_, ?_⟩
            · rw [← hout, hfl, List.flatten_cons]
            · refine List.Forall₂.cons ?_ hfa
              rcases hP with ⟨he, -, -, h0, h1⟩ | ⟨hne, ht⟩
              · exact Or.inl ⟨he, h0, h1⟩
              · exact Or.inr ⟨hne, ht⟩
            · intro hf c hc
              rcases List.mem_cons.mp hc with rfl | hc
              · rcases hP with ⟨-, hifh, -, -, -⟩ | ⟨hne, -⟩
                · rw [hf] at hifh; cases hifh
                · exact hne
              · exact hnn (hmono hf) c hc
            · intro i j hi hj
              rcases hP with ⟨he, hifh, hifh1, -, -⟩ | ⟨hne, -⟩
              · have hall : ∀ c ∈ chunks, c ≠ [] := hnn hifh1
                cases i with
                | zero =>
                  cases j with
                  | zero => rfl
                  | succ j2 =>
                    exfalso
                    simp only [List.get?] at hj
                    exact hall [] (List.get?_mem hj) rfl
                | succ i2 =>
                  exfalso
                  simp only [List.get?] at hi
                  exact hall [] (List.get?_mem hi) rfl
              · cases i with
                | zero =>
                  exfalso
                  simp only [List.get?, Option.some.injEq] at hi
                  exact hne hi
                | succ i2 =>
                  cases j with
                  | zero =>
                    exfalso
                    simp only [List.get?, Option.some.injEq] at hj
                    exact hne hj
                  | succ j2 =>
                    simp only [List.get?] at hi hj
                    have hij := huniq i2 j2 hi hj
                    omega

/-! C1: terminator preservation. -/

/-- C1 (amended): for every input on which `rustdocify` succeeds, the output is
the concatenation of one chunk per input line; every chunk is nonempty and
retains the exact terminator of its input line, except that the chunk of the
consumed first top-level header (a line starting `# `) is empty — that line
disappears from the output together with its terminator — and at most one
chunk is empty.  In particular the output has the same line count and
terminators as the input exactly when no top-level header was consumed, and
one line fewer otherwise. -/
theorem c1_terminator_chunks (readme pkg : List Char)
    (version crate_name : Option (List Char)) (out : List Char)
    (h : rustdocify readme pkg version crate_name = some (.ok out)) :
    ∃ chunks : List (List Char),
      out = chunks.flatten ∧
      List.Forall₂ (fun l c => (c = [] ∧ l.get? 0 = some '#' ∧ l.get? 1 = some ' ') ∨
        (c ≠ [] ∧ terminator c = terminator l)) (split_inclusive readme) chunks ∧
      (∀ i j, chunks.get? i = some ([] : List Char) → chunks.get? j = some [] → i = j) := by
  simp only [rustdocify] at h
  cases hrun : rustdocify_run pkg version crate_name ⟨true, none⟩ (split_inclusive readme)
      with
  | none => rw [hrun] at h; cases h
  | some r =>
    cases r with
    | error e => rw [hrun] at h; simp at h
    | ok p =>
      obtain ⟨out2, stF⟩ := p
      rw [hrun] at h
      simp only [Option.some.injEq, Except.ok.injEq] at h
      subst h
      obtain ⟨chunks, hfl, hfa, -, huniq⟩ := run_chunks pkg version crate_name
        (split_inclusive readme) ⟨true, none⟩ out2 stF split_inclusive_ne_nil hrun
      exact ⟨chunks, hfl, hfa, huniq⟩

/-- Witness for C1: a document mixing `\r\n` and an unterminated final line,
with a demoted header and a converted link. -/
theorem c1_terminator_chunks_witness :
    rustdocify ("## A\r\n[x]: https://docs.rs/foo".toList) ("foo".toList) none none =
      some (.ok ("# A\r\n[x]: crate".toList)) ∧
    ∃ chunks : List (List Char),
      "# A\r\n[x]: crate".toList = chunks.flatten ∧
      List.Forall₂ (fun l c => (c = [] ∧ l.get? 0 = some '#' ∧ l.get? 1 = some ' ') ∨
        (c ≠ [] ∧ terminator c = terminator l))
        (split_inclusive ("## A\r\n[x]: https://docs.rs/foo".toList)) chunks ∧
      (∀ i j, chunks.get? i = some ([] : List Char) → chunks.get? j = some [] → i = j) :=
  ⟨by decide, c1_terminator_chunks ("## A\r\n[x]: https://docs.rs/foo".toList)
    ("foo".toList) none none ("# A\r\n[x]: crate".toList) (by decide)⟩

end Rdoc
